import Mathlib

/-!
dhcp/leases: a verification development

A shallow embedding of the Go package `leases` (src/leases/leases.go), which
parses ISC dhcpd lease files, together with the parts of the Go standard
library it drives (`bufio.Scanner`, `bufio.ScanLines`, `strings.Contains`,
`strings.Fields`).

Conventions.
* A Go `string` or `[]byte` is a list of bytes; a byte is a natural number
  (the definitions only compare bytes, they never do arithmetic on them).
* A Go run-time panic (slice bounds, index out of range) is an explicit
  `Except.error`; the store carried by an `Outcome` is the map as the panic
  left it.
* `time.ParseInLocation` is a parameter `tp` of the development: every
  theorem holds for every time library.
-/

set_option autoImplicit false
set_option maxRecDepth 100000

namespace Leases

/-! ## Bytes and strings -/

/-- A Go string or byte slice. -/
abbrev Bytes := List Nat

/-- The bytes of an ASCII string literal. -/
def lit (s : String) : Bytes := s.toList.map Char.toNat

/-- The byte '}' that ends a lease entry. -/
def rbrace : Nat := 125

/-- The byte '\n'. -/
def newline : Nat := 10

/-- The byte '\r'. -/
def cr : Nat := 13

/-- Go `bytes.IndexByte`: the index of the first occurrence of `c`, `none`
for Go's -1. -/
def IndexByte : Bytes → Nat → Option Nat
  | [], _ => none
  | b :: rest, c => if b = c then some 0 else (IndexByte rest c).map (· + 1)

/-! ## Split functions -/

/-- The three results `(advance, token, err)` of a `bufio.SplitFunc`; a nil
token is `none`, an empty non-nil token is `some []`, a nil error is
`none`. -/
structure SplitResult where
  advance : Nat
  token : Option Bytes
  err : Option Unit
deriving DecidableEq, Repr

/-- A `bufio.SplitFunc`. -/
abbrev SplitFunc := Bytes → Bool → SplitResult

/-- The split function `ScanLeases` (leases.go, 186-196). -/
def ScanLeases (data : Bytes) (atEOF : Bool) : SplitResult :=
  if atEOF ∧ data.length = 0 then
    ⟨0, none, none⟩
  else
    match IndexByte data rbrace with
    | some i => ⟨i + 1, some (data.take i), none⟩
    | none => ⟨0, none, none⟩

/-- Go `dropCR` of package bufio: drops one terminal '\r'. -/
def dropCR (data : Bytes) : Bytes :=
  if data.getLast? = some cr then data.dropLast else data

/-- Go `bufio.ScanLines`, the default split function of a `bufio.Scanner`. -/
def ScanLines (data : Bytes) (atEOF : Bool) : SplitResult :=
  if atEOF ∧ data.length = 0 then
    ⟨0, none, none⟩
  else
    match IndexByte data newline with
    | some i => ⟨i + 1, some (dropCR (data.take i)), none⟩
    | none =>
      if atEOF then ⟨data.length, some (dropCR data), none⟩
      else ⟨0, none, none⟩

/-! ## The scanner loop of `bufio.Scanner`

The reader behind a scanner is the list of chunks its successive `Read` calls
deliver, followed by `io.EOF`.  The buffer is the list of bytes read and not
yet consumed (`s.buf[s.start:s.end]`); its capacity is not bounded here, so
`ErrTooLong` (a token of `bufio.MaxScanTokenSize` bytes or more) and the limit
on consecutive empty reads are outside this model.  They are in `BufScanner`
below; with `ScanLeases` the two scanners yield the same tokens when no block
has `MaxScanTokenSize` bytes or more and the reader never returns no bytes
more than `maxConsecutiveEmptyReads` times in a row (theorem
`bufAll_eq_all`). -/

/-- The state of a `bufio.Scanner`. -/
structure Scanner where
  /-- The bytes read and not yet consumed. -/
  buf : Bytes
  /-- The chunks the reader has yet to deliver. -/
  src : List Bytes
  /-- Whether the reader has reported end of input (`s.err != nil`). -/
  eof : Bool
  /-- The token of the last call of `Scan` (`s.tok`). -/
  tok : Bytes
deriving DecidableEq, Repr

/-- Go `bufio.NewScanner(r)` for a reader that delivers `chunks`. -/
def NewScanner (chunks : List Bytes) : Scanner :=
  { buf := [], src := chunks, eof := false, tok := [] }

/-- Go `(*Scanner).Text`. -/
def Scanner.Text (s : Scanner) : Bytes := s.tok

/-- What one pass over the buffered bytes gives: a token, the end of the
scan (the split function failed or advanced too far), or a request to read
more. -/
inductive Attempt where
  | token (t : Bytes) (rest : Bytes)
  | stop
  | more (rest : Bytes)
deriving DecidableEq, Repr

/-- The head of the loop of `(*Scanner).Scan`: "see if we can get a token
with what we already have"; the split function is called when the buffer is
not empty or the input has ended. -/
def attempt (split : SplitFunc) (buf : Bytes) (atEOF : Bool) : Attempt :=
  if buf ≠ [] ∨ atEOF then
    let r := split buf atEOF
    if r.err.isSome then .stop
    else if buf.length < r.advance then .stop
    else
      match r.token with
      | some t => .token t (buf.drop r.advance)
      | none => .more (buf.drop r.advance)
  else .more buf

/-- The rest of `Scan` once the reader has reported end of input: one call
of the split function with `atEOF = true`; without a token the scanner is
shut down (`s.start = 0; s.end = 0; return false`). -/
def scanEOF (split : SplitFunc) (buf : Bytes) : Bool × Scanner :=
  match attempt split buf true with
  | .token t rest => (true, { buf := rest, src := [], eof := true, tok := t })
  | .stop => (false, { buf := buf, src := [], eof := true, tok := [] })
  | .more _ => (false, { buf := [], src := [], eof := true, tok := [] })

/-- The loop of `Scan` before end of input: try the buffer; without a token
read the next chunk and append it to the unconsumed bytes, or take note of
the end of input. -/
def scanLoop (split : SplitFunc) : List Bytes → Bytes → Bool × Scanner
  | [], buf =>
    match attempt split buf false with
    | .token t rest => (true, { buf := rest, src := [], eof := false, tok := t })
    | .stop => (false, { buf := buf, src := [], eof := true, tok := [] })
    | .more rest => scanEOF split rest
  | c :: cs, buf =>
    match attempt split buf false with
    | .token t rest => (true, { buf := rest, src := c :: cs, eof := false, tok := t })
    | .stop => (false, { buf := buf, src := c :: cs, eof := true, tok := [] })
    | .more rest => scanLoop split cs (rest ++ c)

/-- Go `(*Scanner).Scan`: whether a token was found, and the scanner after
the call. -/
def Scanner.Scan (split : SplitFunc) (s : Scanner) : Bool × Scanner :=
  if s.eof then scanEOF split s.buf else scanLoop split s.src s.buf

/-- The tokens of `for s.Scan() { ... s.Text() ... }`, with at most `fuel`
calls of `Scan`; `none` when the loop has not ended within `fuel` calls. -/
def Scanner.tokens (split : SplitFunc) : Nat → Scanner → Option (List Bytes)
  | 0, _ => none
  | fuel + 1, s =>
    match s.Scan split with
    | (true, s1) => (Scanner.tokens split fuel s1).map (s1.Text :: ·)
    | (false, _) => some []

/-- The bytes a scanner has not consumed yet: the buffer and what the reader
has still to deliver. -/
def Scanner.pending (s : Scanner) : Bytes := s.buf ++ s.src.flatten

/-- All the tokens of `for s.Scan() { ... }`.  The number of calls of `Scan`
is bounded by the number of unconsumed bytes plus one, which is enough for
a split function that advances whenever it returns a token, as `ScanLeases`
and `ScanLines` do (theorems `tokens_ScanLeases` and `tokens_ScanLines`). -/
def Scanner.all (split : SplitFunc) (s : Scanner) : List Bytes :=
  (s.tokens split (s.pending.length + 1)).getD []

/-! ## Package strings -/

/-- Go `strings.HasPrefix`. -/
def HasPrefix : Bytes → Bytes → Bool
  | _, [] => true
  | [], _ :: _ => false
  | a :: s, b :: p => a == b && HasPrefix s p

/-- Go `strings.Contains`: `substr` occurs in `s`. -/
def Contains : Bytes → Bytes → Bool
  | [], substr => substr.isEmpty
  | a :: s, substr => HasPrefix (a :: s) substr || Contains s substr

/-- The width in bytes of the white-space rune at the head of `s`, 0 when
there is none.  White space is `unicode.IsSpace`: the ASCII bytes
'\t' '\n' '\v' '\f' '\r' ' ' and the UTF-8 encodings of U+0085, U+00A0,
U+1680, U+2000 to U+200A, U+2028, U+2029, U+202F, U+205F and U+3000. -/
def spaceWidth : Bytes → Nat
  | 9 :: _ => 1
  | 10 :: _ => 1
  | 11 :: _ => 1
  | 12 :: _ => 1
  | 13 :: _ => 1
  | 32 :: _ => 1
  | 0xC2 :: 0x85 :: _ => 2
  | 0xC2 :: 0xA0 :: _ => 2
  | 0xE1 :: 0x9A :: 0x80 :: _ => 3
  | 0xE2 :: 0x80 :: b :: _ =>
    if (0x80 ≤ b ∧ b ≤ 0x8A) ∨ b = 0xA8 ∨ b = 0xA9 ∨ b = 0xAF then 3 else 0
  | 0xE2 :: 0x81 :: 0x9F :: _ => 3
  | 0xE3 :: 0x80 :: 0x80 :: _ => 3
  | _ => 0

/-- The field under construction, closed: nothing when it is empty. -/
def flushField (cur : Bytes) : List Bytes :=
  if cur = [] then [] else [cur]

/-- The loop of `strings.Fields`: `skip` counts the bytes of a white-space
rune still to pass over, `cur` is the field under construction. -/
def fieldsAux : Bytes → Nat → Bytes → List Bytes
  | [], _, cur => flushField cur
  | _ :: rest, skip + 1, cur => fieldsAux rest skip cur
  | b :: rest, 0, cur =>
    match spaceWidth (b :: rest) with
    | 0 => fieldsAux rest 0 (cur ++ [b])
    | w + 1 => flushField cur ++ fieldsAux rest w []

/-- Go `strings.Fields`: the maximal runs of bytes of `s` free of white
space. -/
def Fields (s : Bytes) : List Bytes := fieldsAux s 0 []

/-! ## Run-time panics and slices -/

/-- The run-time panics of the program. -/
inductive Panic where
  /-- A slice expression `s[lo:hi]` out of range. -/
  | sliceBounds
  /-- An index expression `xs[i]` out of range. -/
  | indexOutOfRange
deriving DecidableEq, Repr

deriving instance DecidableEq for Except

/-- The Go slice expression `s[lo:hi]` on a string: it panics unless
`0 ≤ lo ≤ hi ≤ len(s)`; the bounds are Go `int`s, so `len(s)-1` is -1 on the
empty string. -/
def slice (s : Bytes) (lo hi : Int) : Except Panic Bytes :=
  if 0 ≤ lo ∧ lo ≤ hi ∧ hi ≤ (s.length : Int) then
    .ok ((s.take hi.toNat).drop lo.toNat)
  else .error .sliceBounds

/-- The Go index expression `xs[i]` on a slice of strings. -/
def index (xs : List Bytes) (i : Nat) : Except Panic Bytes :=
  match xs[i]? with
  | some x => .ok x
  | none => .error .indexOutOfRange

/-! ## Package time

What the program uses of package time: the type `time.Time` is `τ`, the type
of its errors is `ε`. -/

/-- The time library: the zero `time.Time` and
`time.ParseInLocation(layout, value, loc)` for the location
"America/New_York" that `LeaseTime` loads. -/
structure TimeLib (τ ε : Type) where
  zero : τ
  ParseInLocation : Bytes → Bytes → τ × Option ε

/-- The constant `ISCDHCPD` (leases.go, 14). -/
def ISCDHCPD : Bytes := lit "2006/01/02 15:04:05"

/-- The function `LeaseTime` (leases.go, 177-180). -/
def LeaseTime {τ ε : Type} (T : TimeLib τ ε) (d : Bytes) : τ × Option ε :=
  T.ParseInLocation ISCDHCPD d

/-! ## Leases -/

/-- The type `Lease` (leases.go, 17-25). -/
structure Lease (τ ε : Type) where
  address : Bytes
  starts : τ
  ends : τ
  binding : Bytes
  mac : Bytes
  circuitId : Bytes
  e : List ε
deriving DecidableEq, Repr

/-- Go `new(Lease)`: every field at its zero value. -/
def Lease.new {τ ε : Type} (T : TimeLib τ ε) : Lease τ ε :=
  { address := [], starts := T.zero, ends := T.zero, binding := [], mac := [],
    circuitId := [], e := [] }

/-- The method `setAddress` (leases.go, 44-46). -/
def Lease.setAddress {τ ε : Type} (l : Lease τ ε) (s : Bytes) : Lease τ ε :=
  { l with address := s }

/-- The method `Address` (leases.go, 48-50). -/
def Lease.Address {τ ε : Type} (l : Lease τ ε) : Bytes := l.address

/-- The method `setMac` (leases.go, 53-55). -/
def Lease.setMac {τ ε : Type} (l : Lease τ ε) (s : Bytes) : Except Panic (Lease τ ε) :=
  match slice s 20 ((s.length : Int) - 1) with
  | .ok v => .ok { l with mac := v }
  | .error p => .error p

/-- The method `setCircuitId` (leases.go, 62-64). -/
def Lease.setCircuitId {τ ε : Type} (l : Lease τ ε) (s : Bytes) : Except Panic (Lease τ ε) :=
  match slice s 27 ((s.length : Int) - 2) with
  | .ok v => .ok { l with circuitId := v }
  | .error p => .error p

/-- The method `setBindingState` (leases.go, 71-73). -/
def Lease.setBindingState {τ ε : Type} (l : Lease τ ε) (s : Bytes) : Except Panic (Lease τ ε) :=
  match slice s 16 ((s.length : Int) - 1) with
  | .ok v => .ok { l with binding := v }
  | .error p => .error p

/-- The error list after `if err != nil { l.e = append(l.e, err) }`. -/
def appendErr {ε : Type} (e : List ε) : Option ε → List ε
  | some err => e ++ [err]
  | none => e

/-- The method `setStarts` (leases.go, 81-87). -/
def Lease.setStarts {τ ε : Type} (T : TimeLib τ ε) (l : Lease τ ε) (s : Bytes) :
    Except Panic (Lease τ ε) :=
  match slice s 11 ((s.length : Int) - 1) with
  | .ok d =>
    let r := LeaseTime T d
    .ok { l with e := appendErr l.e r.2, starts := r.1 }
  | .error p => .error p

/-- The method `setEnds` (leases.go, 96-102). -/
def Lease.setEnds {τ ε : Type} (T : TimeLib τ ε) (l : Lease τ ε) (s : Bytes) :
    Except Panic (Lease τ ε) :=
  match slice s 9 ((s.length : Int) - 1) with
  | .ok d =>
    let r := LeaseTime T d
    .ok { l with e := appendErr l.e r.2, ends := r.1 }
  | .error p => .error p

/-- The method `Error` (leases.go, 113-115). -/
def Lease.Error {τ ε : Type} (l : Lease τ ε) : List ε := l.e

/-! ## The lease store -/

/-- The map `map[string]*Lease`: an association list with one entry for each
key, in the order the keys were first assigned. -/
abbrev Store (τ ε : Type) := List (Bytes × Lease τ ε)

/-- The Go map assignment `m[k] = v`. -/
def Store.assign {τ ε : Type} : Store τ ε → Bytes → Lease τ ε → Store τ ε
  | [], k, v => [(k, v)]
  | (k1, v1) :: rest, k, v =>
    if k1 = k then (k, v) :: rest else (k1, v1) :: Store.assign rest k v

/-- The Go map index `m[k]`, `none` for a key the map does not hold. -/
def Store.get {τ ε : Type} : Store τ ε → Bytes → Option (Lease τ ε)
  | [], _ => none
  | (k1, v1) :: rest, k => if k1 = k then some v1 else Store.get rest k

/-- The type `LeaseFile` (leases.go, 27-30). -/
structure LeaseFile (τ ε : Type) where
  scanner : Scanner
  leases : Store τ ε

/-- The function `NewLeases` (leases.go, 35-42), for a reader that delivers
`chunks`; the split function `ScanLeases` is passed where the scanner is
driven. -/
def NewLeases {τ ε : Type} (chunks : List Bytes) : LeaseFile τ ε :=
  { scanner := NewScanner chunks, leases := [] }

/-- The method `AddLease` (leases.go, 117-119). -/
def AddLease {τ ε : Type} (leases : Store τ ε) (lease : Lease τ ε) : Store τ ε :=
  leases.assign lease.Address lease

/-- The method `Leases` (leases.go, 121-123). -/
def LeaseFile.Leases {τ ε : Type} (lf : LeaseFile τ ε) : Store τ ε := lf.leases

/-! ## Parse -/

/-- The marker "ends" (the markers are the string constants of leases.go,
134-154). -/
def mEnds : Bytes := lit "ends"

/-- The marker "starts". -/
def mStarts : Bytes := lit "starts"

/-- The marker "hardware". -/
def mHardware : Bytes := lit "hardware"

/-- The marker "option agent.circuit-id". -/
def mCircuitId : Bytes := lit "option agent.circuit-id"

/-- The marker "  binding state", with its two leading spaces. -/
def mBinding : Bytes := lit "  binding state"

/-- The marker "lease" of the declaration line. -/
def mLease : Bytes := lit "lease"

/-- One `if strings.Contains(s.Text(), marker) { lease.set(s.Text()) }` of
the inner loop. -/
def onMarker {τ ε : Type} (line marker : Bytes)
    (set : Lease τ ε → Bytes → Except Panic (Lease τ ε)) (l : Lease τ ε) :
    Except Panic (Lease τ ε) :=
  if Contains line marker then set l line else .ok l

/-- The body of the inner loop of `Parse` (leases.go, 138-156) on one
line: the five tests in the order of the source. -/
def fieldLine {τ ε : Type} (T : TimeLib τ ε) (l : Lease τ ε) (line : Bytes) :
    Except Panic (Lease τ ε) :=
  onMarker line mEnds (Lease.setEnds T) l >>= fun l1 =>
  onMarker line mStarts (Lease.setStarts T) l1 >>= fun l2 =>
  onMarker line mHardware Lease.setMac l2 >>= fun l3 =>
  onMarker line mCircuitId Lease.setCircuitId l3 >>= fun l4 =>
  onMarker line mBinding Lease.setBindingState l4

/-- The inner loop `for s.Scan() { ... }` of `Parse` (leases.go, 137-158)
over the lines that follow the declaration line. -/
def scanFields {τ ε : Type} (T : TimeLib τ ε) : Lease τ ε → List Bytes → Except Panic (Lease τ ε)
  | l, [] => .ok l
  | l, line :: rest =>
    match fieldLine T l line with
    | .ok l1 => scanFields T l1 rest
    | .error p => .error p

/-- The end of the body of the line loop (leases.go, 160-166): a lease
with errors is skipped, a lease with an address is added. -/
def commit {τ ε : Type} (leases : Store τ ε) (lease : Lease τ ε) : Store τ ε :=
  if lease.Error.length > 0 then leases
  else if lease.Address.length > 0 then AddLease leases lease
  else leases

/-- The store of a run of the program with the panic that ended it, if
any. -/
structure Outcome (τ ε : Type) where
  leases : Store τ ε
  panic : Option Panic
deriving DecidableEq, Repr

/-- The line loop `for s.Scan() { ... }` of `Parse` (leases.go, 132-168)
over the lines of one entry.  A line that contains "lease" takes all the
lines after it into its inner loop, so the next `s.Scan()` of the line loop
returns false. -/
def parseLines {τ ε : Type} (T : TimeLib τ ε) : Store τ ε → List Bytes → Outcome τ ε
  | leases, [] => ⟨leases, none⟩
  | leases, line :: rest =>
    let lease := Lease.new T
    if Contains line mLease then
      match index (Fields line) 1 with
      | .error p => ⟨leases, some p⟩
      | .ok a =>
        match scanFields T (lease.setAddress a) rest with
        | .error p => ⟨leases, some p⟩
        | .ok l => ⟨commit leases l, none⟩
    else parseLines T (commit leases lease) rest

/-- Go `strings.NewReader(s)`: a reader that delivers `s` and then
`io.EOF`. -/
def NewReader (s : Bytes) : List Bytes := [s]

/-- The body of the entry loop of `Parse` (leases.go, 128-168) on the text
of one entry. -/
def parseEntry {τ ε : Type} (T : TimeLib τ ε) (leases : Store τ ε) (text : Bytes) :
    Outcome τ ε :=
  parseLines T leases ((NewScanner (NewReader text)).all ScanLines)

/-- The entry loop `for lf.scanner.Scan() { ... }` of `Parse`
(leases.go, 127-170) over the entries of the file; a panic ends it. -/
def parseEntries {τ ε : Type} (T : TimeLib τ ε) : Store τ ε → List Bytes → Outcome τ ε
  | leases, [] => ⟨leases, none⟩
  | leases, text :: rest =>
    match parseEntry T leases text with
    | ⟨leases1, none⟩ => parseEntries T leases1 rest
    | ⟨leases1, some p⟩ => ⟨leases1, some p⟩

/-- The method `Parse` (leases.go, 125-172). -/
def Parse {τ ε : Type} (T : TimeLib τ ε) (lf : LeaseFile τ ε) : Outcome τ ε :=
  parseEntries T lf.leases (lf.scanner.all ScanLeases)

/-! ## Reference functions

Functions on whole streams, not taken from the source: the theorems
compare the scanner loop with them. -/

/-- The blocks of a stream: the texts that end at each '}' byte, in order;
`cur` is the text since the last '}'.  What follows the last '}' is not a
block. -/
def blocksAux : Bytes → Bytes → List Bytes
  | _, [] => []
  | cur, b :: rest =>
    if b = rbrace then cur :: blocksAux [] rest else blocksAux (cur ++ [b]) rest

/-- The blocks of a stream. -/
def blocks (s : Bytes) : List Bytes := blocksAux [] s

/-- The lines of a text, as `bufio.ScanLines` cuts them: the texts that end
at each '\n' byte and the text after the last one when it is not empty, each
without one terminal '\r'; `cur` is the text since the last '\n'. -/
def linesAux : Bytes → Bytes → List Bytes
  | cur, [] => if cur = [] then [] else [dropCR cur]
  | cur, b :: rest =>
    if b = newline then dropCR cur :: linesAux [] rest else linesAux (cur ++ [b]) rest

/-- The lines of a text. -/
def lines (s : Bytes) : List Bytes := linesAux [] s

/-- The value of the slice expression `s[lo : len(s)-k]` when it is in
range. -/
def sl (s : Bytes) (lo k : Nat) : Bytes := (s.take (s.length - k)).drop lo

/-- A line is long enough for the slice of every marker it contains: 10
bytes for "ends", 12 for "starts", 21 for "hardware", 29 for
"option agent.circuit-id", 17 for "  binding state". -/
def lineSafe (line : Bytes) : Prop :=
  (Contains line mEnds = true → 10 ≤ line.length) ∧
  (Contains line mStarts = true → 12 ≤ line.length) ∧
  (Contains line mHardware = true → 21 ≤ line.length) ∧
  (Contains line mCircuitId = true → 29 ≤ line.length) ∧
  (Contains line mBinding = true → 17 ≤ line.length)

instance (line : Bytes) : Decidable (lineSafe line) := by
  unfold lineSafe
  infer_instance

/-- The timestamp texts a line hands to `LeaseTime`, in the order of the
source: the one of "ends", then the one of "starts". -/
def lineStamps (line : Bytes) : List Bytes :=
  (if Contains line mEnds then [sl line 9 1] else []) ++
  (if Contains line mStarts then [sl line 11 1] else [])

/-- The lease after the body of the inner loop on a line that is long
enough for its slices. -/
def fieldLineT {τ ε : Type} (T : TimeLib τ ε) (l : Lease τ ε) (line : Bytes) : Lease τ ε :=
  { address := l.address,
    starts := if Contains line mStarts then (LeaseTime T (sl line 11 1)).1 else l.starts,
    ends := if Contains line mEnds then (LeaseTime T (sl line 9 1)).1 else l.ends,
    binding := if Contains line mBinding then sl line 16 1 else l.binding,
    mac := if Contains line mHardware then sl line 20 1 else l.mac,
    circuitId := if Contains line mCircuitId then sl line 27 2 else l.circuitId,
    e := l.e ++ (lineStamps line).filterMap (fun d => (LeaseTime T d).2) }

/-- The last of the lines that contain a marker. -/
def lastWith (marker : Bytes) (rest : List Bytes) : Option Bytes :=
  (rest.filter (fun line => Contains line marker)).getLast?

/-- The lease after the inner loop over lines that are long enough for
their slices: each field comes from the last line that contains its marker,
and the errors are those of the timestamps in the order of the lines. -/
def fieldsOf {τ ε : Type} (T : TimeLib τ ε) (l : Lease τ ε) (rest : List Bytes) : Lease τ ε :=
  { address := l.address,
    starts := match lastWith mStarts rest with
      | some line => (LeaseTime T (sl line 11 1)).1
      | none => l.starts,
    ends := match lastWith mEnds rest with
      | some line => (LeaseTime T (sl line 9 1)).1
      | none => l.ends,
    binding := match lastWith mBinding rest with
      | some line => sl line 16 1
      | none => l.binding,
    mac := match lastWith mHardware rest with
      | some line => sl line 20 1
      | none => l.mac,
    circuitId := match lastWith mCircuitId rest with
      | some line => sl line 27 2
      | none => l.circuitId,
    e := l.e ++ (rest.flatMap (fun line => lineStamps line)).filterMap
      (fun d => (LeaseTime T d).2) }

/-! ## A time library to evaluate the definitions on -/

/-- An ASCII digit. -/
def isDigit (b : Nat) : Bool := decide (48 ≤ b) && decide (b ≤ 57)

/-- The value has the shape of the layout: a digit where the layout has a
digit, the byte of the layout elsewhere. -/
def sameShape : Bytes → Bytes → Bool
  | [], [] => true
  | l :: ls, v :: vs => (if isDigit l then isDigit v else v == l) && sameShape ls vs
  | _, _ => false

/-- A time library in which a time is the text of a timestamp: a value
of the shape of the layout is accepted and is its own time, any other value
is an error. -/
def sampleTime : TimeLib Bytes Unit :=
  { zero := [],
    ParseInLocation := fun layout value =>
      if sameShape layout value then (value, none) else ([], some ()) }

/-! ## Sample inputs -/

/-- The entry of the example of the specification, with its closing
brace. -/
def exampleStream : Bytes :=
  lit ("lease 10.0.0.5 \x7b\n  starts 2 2023/01/10 08:00:00;\n" ++
       "  ends 2 2023/01/10 20:00:00;\n  hardware ethernet aa:bb:cc:dd:ee:ff;\n" ++
       "  binding state active;\n\x7d")

/-- An entry with one line for each of the five markers. -/
def fullEntry : Bytes :=
  lit ("lease 10.0.0.7 \x7b\n  starts 2 2023/01/10 08:00:00;\n" ++
       "  ends 2 2023/01/10 20:00:00;\n  binding state free;\n" ++
       "  hardware ethernet aa:bb:cc:dd:ee:01;\n" ++
       "  option agent.circuit-id \x22eth0/1\x22;\n")

/-- The entry of `exampleStream`, without its closing brace. -/
def exampleEntry : Bytes :=
  lit ("lease 10.0.0.5 \x7b\n  starts 2 2023/01/10 08:00:00;\n" ++
       "  ends 2 2023/01/10 20:00:00;\n  hardware ethernet aa:bb:cc:dd:ee:ff;\n" ++
       "  binding state active;\n")

/-- The field lines of `exampleEntry`. -/
def exampleFields : List Bytes :=
  [lit "  starts 2 2023/01/10 08:00:00;", lit "  ends 2 2023/01/10 20:00:00;",
   lit "  hardware ethernet aa:bb:cc:dd:ee:ff;", lit "  binding state active;"]

/-- A host stanza whose name contains "lease". -/
def hostEntry : Bytes := lit "host release-box \x7b\n"

/-- The comment line that opens a lease file. -/
def commentEntry : Bytes := lit "# This lease file was written by isc-dhcp\n"

/-- A stanza without the text "lease". -/
def groupEntry : Bytes := lit "host printer \x7b\n  fixed-address 10.0.0.9;\n"

/-- A store with one record. -/
def oneStore : Store Bytes Unit :=
  [(lit "10.0.0.5",
    { address := lit "10.0.0.5", starts := lit "2023/01/10 08:00:00",
      ends := lit "2023/01/10 20:00:00", binding := lit "active",
      mac := lit "aa:bb:cc:dd:ee:ff", circuitId := [], e := [] })]

/-- An entry whose first "ends" line has no timestamp, followed by a valid
one. -/
def neverEntry : Bytes :=
  lit ("lease 10.0.0.8 \x7b\n  starts 2 2023/01/10 08:00:00;\n  ends never;\n" ++
       "  hardware ethernet aa:bb:cc:dd:ee:02;\n  ends 2 2023/01/10 20:00:00;\n")

/-- The field lines of `neverEntry`. -/
def neverFields : List Bytes :=
  [lit "  starts 2 2023/01/10 08:00:00;", lit "  ends never;",
   lit "  hardware ethernet aa:bb:cc:dd:ee:02;", lit "  ends 2 2023/01/10 20:00:00;"]

/-- A stream of two entries, the first with a line "ends;" that is too short
for its slice. -/
def shortStream : Bytes :=
  lit "lease 10.0.0.5 \x7b\nends;\n\x7dlease 10.0.0.6 \x7b\n\x7d"

/-- A stream of two entries, the first with the line "  ends never;". -/
def neverStream : Bytes := neverEntry ++ lit "\x7dlease 10.0.0.6 \x7b\n\x7d"

/-- The second entry of `shortStream` and of `neverStream`. -/
def secondEntry : Bytes := lit "lease 10.0.0.6 \x7b\n"

/-! ## Entries -/

/-- The text of an entry whose first line that contains "lease" has `a` as
its second field and is followed by the lines `rest`. -/
def EntryOf (text a : Bytes) (rest : List Bytes) : Prop :=
  ∃ pre decl, lines text = pre ++ decl :: rest ∧
    (∀ x ∈ pre, Contains x mLease = false) ∧ Contains decl mLease = true ∧
    (Fields decl)[1]? = some a

/-- Field lines that are long enough for their slices and whose timestamps
the time library accepts. -/
def Clean {τ ε : Type} (T : TimeLib τ ε) (rest : List Bytes) : Prop :=
  (∀ line ∈ rest, lineSafe line) ∧
  ∀ d ∈ rest.flatMap lineStamps, (LeaseTime T d).2 = none

/-- A stream of two entries, the first with the declaration line "lease". -/
def bareStream : Bytes := lit "lease\n\x7dlease 10.0.0.6 \x7b\n\x7d"

/-- The two entries of a renewal: the same address declared twice, the
later entry without a hardware line. -/
def renewalFirst : Bytes :=
  lit ("lease 10.0.0.5 \x7b\n  starts 2 2023/01/10 08:00:00;\n" ++
       "  hardware ethernet aa:bb:cc:dd:ee:ff;\n  binding state active;\n")

/-- The later entry of the renewal. -/
def renewalSecond : Bytes :=
  lit "lease 10.0.0.5 \x7b\n  ends 2 2023/01/11 20:00:00;\n  binding state free;\n"

/-- The field lines of `renewalFirst`. -/
def renewalFirstFields : List Bytes :=
  [lit "  starts 2 2023/01/10 08:00:00;", lit "  hardware ethernet aa:bb:cc:dd:ee:ff;",
   lit "  binding state active;"]

/-- The field lines of `renewalSecond`. -/
def renewalSecondFields : List Bytes :=
  [lit "  ends 2 2023/01/11 20:00:00;", lit "  binding state free;"]

/-- The stream of the renewal: the two entries for "10.0.0.5" and then the
entry for "10.0.0.6". -/
def renewalStream : Bytes :=
  renewalFirst ++ [rbrace] ++ renewalSecond ++ [rbrace] ++ secondEntry ++ [rbrace]

/-- A renewal with a timestamp that does not parse. -/
def rejectedSecond : Bytes :=
  lit "lease 10.0.0.5 \x7b\n  ends never;\n  binding state free;\n"

/-- The stream of the rejected renewal. -/
def rejectedStream : Bytes :=
  renewalFirst ++ [rbrace] ++ rejectedSecond ++ [rbrace] ++ secondEntry ++ [rbrace]

/-- An entry with two hardware lines and two binding-state lines. -/
def dupEntry : Bytes :=
  lit ("lease 10.0.0.9 \x7b\n  hardware ethernet aa:aa:aa:aa:aa:01;\n" ++
       "  binding state active;\n  hardware ethernet aa:aa:aa:aa:aa:02;\n" ++
       "  binding state free;\n")

/-- The field lines of `dupEntry`. -/
def dupFields : List Bytes :=
  [lit "  hardware ethernet aa:aa:aa:aa:aa:01;", lit "  binding state active;",
   lit "  hardware ethernet aa:aa:aa:aa:aa:02;", lit "  binding state free;"]

/-- The entry `exampleEntry` with its field lines in another order. -/
def permutedEntry : Bytes :=
  lit ("lease 10.0.0.5 \x7b\n  binding state active;\n" ++
       "  hardware ethernet aa:bb:cc:dd:ee:ff;\n  ends 2 2023/01/10 20:00:00;\n" ++
       "  starts 2 2023/01/10 08:00:00;\n")

/-- The field lines of `permutedEntry`. -/
def permutedFields : List Bytes :=
  [lit "  binding state active;", lit "  hardware ethernet aa:bb:cc:dd:ee:ff;",
   lit "  ends 2 2023/01/10 20:00:00;", lit "  starts 2 2023/01/10 08:00:00;"]

/-! ## Binding-state lines -/

/-- The byte ' '. -/
def space : Nat := 32

/-- The line "  next binding state X;". -/
def nextBindingLine (X : Bytes) : Bytes := lit "  next binding state " ++ X ++ lit ";"

/-- The line "  rewind binding state X;". -/
def rewindBindingLine (X : Bytes) : Bytes := lit "  rewind binding state " ++ X ++ lit ";"

/-- The line "  binding state X;". -/
def bindingLine (X : Bytes) : Bytes := lit "  binding state " ++ X ++ lit ";"

/-! ## The scanner of package bufio with its limits

The scanner that `NewLeases` builds keeps the defaults of `bufio.NewScanner`:
a buffer that starts at `startBufSize` bytes and doubles up to
`MaxScanTokenSize`, and a reader that may return no bytes at most
`maxConsecutiveEmptyReads` times in a row.  `BufScanner` is the state of
`(*Scanner).Scan` with these limits.  The reader holds the chunks it will
deliver; a `Read` into the free space of the buffer returns the next chunk,
or as much of it as the space takes, the rest staying for the next `Read`. -/

/-- Go `bufio.MaxScanTokenSize`. -/
def MaxScanTokenSize : Nat := 64 * 1024

/-- Go `startBufSize` of package bufio. -/
def startBufSize : Nat := 4096

/-- Go `maxConsecutiveEmptyReads` of package bufio. -/
def maxConsecutiveEmptyReads : Nat := 100

/-- The errors that end a scan: `io.EOF`, `bufio.ErrTooLong`,
`io.ErrNoProgress`, and an error of the split function or of its advance. -/
inductive ScanErr where
  | eof
  | tooLong
  | noProgress
  | split
deriving DecidableEq, Repr

/-- The state of a `bufio.Scanner`: the length of its buffer, `s.start`, the
bytes `s.buf[s.start:s.end]`, the chunks the reader has yet to deliver,
`s.err` and `s.tok`. -/
structure BufScanner where
  cap : Nat
  start : Nat
  data : Bytes
  src : List Bytes
  err : Option ScanErr
  tok : Bytes
deriving DecidableEq, Repr

/-- Go `bufio.NewScanner(r)`, limits included, for a reader that delivers
`chunks`. -/
def NewBufScanner (chunks : List Bytes) : BufScanner :=
  { cap := 0, start := 0, data := [], src := chunks, err := none, tok := [] }

/-- What the read loop at the end of `Scan` brings: the bytes read, the
chunks left to the reader, and the error that ended the loop, if any. -/
structure ReadResult where
  got : Bytes
  src : List Bytes
  err : Option ScanErr
deriving DecidableEq, Repr

/-- The read loop `for loop := 0; ; { ... }` of `Scan`, with `space` free
bytes in the buffer: an empty read is tried again, more than
`maxConsecutiveEmptyReads` of them in a row is `io.ErrNoProgress`; a reader
with no chunk left returns `io.EOF`. -/
def readMore (space : Nat) : List Bytes → Nat → ReadResult
  | [], _ => ⟨[], [], some .eof⟩
  | c :: cs, loop =>
    if c = [] then
      if maxConsecutiveEmptyReads < loop + 1 then ⟨[], cs, some .noProgress⟩
      else readMore space cs (loop + 1)
    else ⟨c.take space, if c.drop space = [] then cs else c.drop space :: cs, none⟩

/-- How one round of the loop of `Scan` ends: `Scan` returns true, `Scan`
returns false, or the loop goes round once more. -/
inductive Step where
  | token (s : BufScanner)
  | stop (s : BufScanner)
  | again (s : BufScanner)
deriving DecidableEq, Repr

/-- The first part of "must read more data" in `Scan`: the bytes are
shifted to the start of the buffer when it is full or more than half of it
is consumed. -/
def BufScanner.shift (s : BufScanner) : BufScanner :=
  if 0 < s.start ∧ (s.start + s.data.length = s.cap ∨ s.cap / 2 < s.start) then
    { s with start := 0 }
  else s

/-- The read loop of `Scan` and its effect on the scanner: the bytes read
are appended to the buffered bytes, the error of the reader is kept. -/
def BufScanner.read (s : BufScanner) : Step :=
  let r := readMore (s.cap - (s.start + s.data.length)) s.src 0
  .again { s with data := s.data ++ r.got, src := r.src, err := r.err, tok := [] }

/-- The second half of a round of `Scan`, "must read more data": the bytes
are shifted; a full buffer is doubled (from nothing to `startBufSize`, never
beyond `MaxScanTokenSize`), or the scan ends with `ErrTooLong` when the buffer
has `MaxScanTokenSize` bytes already; then the reader is read. -/
def BufScanner.fill (s : BufScanner) : Step :=
  if s.shift.start + s.shift.data.length = s.shift.cap then
    if MaxScanTokenSize ≤ s.shift.cap then
      .stop { s.shift with err := some .tooLong, tok := [] }
    else
      BufScanner.read
        { s.shift with
          cap := min (if s.shift.cap * 2 = 0 then startBufSize else s.shift.cap * 2)
            MaxScanTokenSize,
          start := 0 }
  else BufScanner.read s.shift

/-- One round of the loop of `(*Scanner).Scan`: the split function is tried
on the buffered bytes; without a token the scan ends if the reader has
failed, and reads more otherwise. -/
def BufScanner.step (split : SplitFunc) (s : BufScanner) : Step :=
  match attempt split s.data s.err.isSome with
  | .token t rest =>
    .token { s with start := s.start + (s.data.length - rest.length), data := rest, tok := t }
  | .stop => .stop { s with err := some (s.err.getD .split), tok := [] }
  | .more rest =>
    if s.err.isSome then .stop { s with start := 0, data := [], tok := [] }
    else
      BufScanner.fill
        { s with start := s.start + (s.data.length - rest.length), data := rest, tok := [] }

/-- The tokens of `for s.Scan() { ... s.Text() ... }` within `fuel` rounds
of the loop of `Scan`; `none` when the rounds do not suffice. -/
def BufScanner.tokens (split : SplitFunc) : Nat → BufScanner → Option (List Bytes)
  | 0, _ => none
  | fuel + 1, s =>
    match s.step split with
    | .token s1 => (BufScanner.tokens split fuel s1).map (s1.tok :: ·)
    | .stop _ => some []
    | .again s1 => BufScanner.tokens split fuel s1

/-- A bound on the rounds of the loop of `Scan` a scanner has left: a round
consumes a buffered byte, or moves a byte or a chunk from the reader to the
buffer, or ends the scan. -/
def BufScanner.bound (s : BufScanner) : Nat :=
  s.data.length + 2 * s.src.flatten.length + s.src.length + 2

/-- All the tokens of `for s.Scan() { ... }` on the scanner with its
limits; the bound on the rounds is enough with `ScanLeases` (theorem
`bufTokens_ScanLeases`). -/
def BufScanner.all (split : SplitFunc) (s : BufScanner) : List Bytes :=
  (s.tokens split s.bound).getD []

/-- Every run of consecutive empty chunks has at most
`maxConsecutiveEmptyReads` members; `run` is the length of the run that ends
before the list. -/
def runsOK : List Bytes → Nat → Bool
  | [], _ => true
  | c :: cs, run =>
    if c = [] then decide (run + 1 ≤ maxConsecutiveEmptyReads) && runsOK cs (run + 1)
    else runsOK cs 0

/-- The blocks of a stream up to the first block of `MaxScanTokenSize` bytes
or more. -/
def shortBlocks (s : Bytes) : List Bytes :=
  (blocks s).takeWhile (fun b => decide (b.length < MaxScanTokenSize))

/-- A reader that returns no bytes 101 times and then delivers one entry. -/
def stalledChunks : List Bytes := List.replicate 101 [] ++ [lit "a\x7d"]

/-- A stream of one block of `MaxScanTokenSize` bytes and its closing
brace. -/
def longBlock : Bytes := List.replicate MaxScanTokenSize 97 ++ [rbrace]

/-! # Theorems -/

/-! ## IndexByte -/

theorem IndexByte_eq_none {data : Bytes} {c : Nat} :
    IndexByte data c = none ↔ c ∉ data := by
  induction data with
  | nil => simp [IndexByte]
  | cons b rest ih =>
    by_cases hb : b = c
    · simp [IndexByte, hb]
    · simp [IndexByte, hb, ih, Ne.symm hb]

theorem IndexByte_append {pre post : Bytes} {c : Nat} (h : c ∉ pre) :
    IndexByte (pre ++ c :: post) c = some pre.length := by
  induction pre with
  | nil => simp [IndexByte]
  | cons b rest ih =>
    have hb : b ≠ c := fun e => h (by simp [e])
    have hr : c ∉ rest := fun e => h (by simp [e])
    simp [IndexByte, hb, ih hr]

theorem IndexByte_eq_some {data : Bytes} {c i : Nat} (h : IndexByte data c = some i) :
    data = data.take i ++ c :: data.drop (i + 1) ∧ c ∉ data.take i ∧ i < data.length := by
  induction data generalizing i with
  | nil => simp [IndexByte] at h
  | cons b rest ih =>
    by_cases hb : b = c
    · simp [IndexByte, hb] at h
      subst h
      simp [hb]
    · simp only [IndexByte, hb, if_false, Option.map_eq_some'] at h
      obtain ⟨j, hj, rfl⟩ := h
      obtain ⟨h1, h2, h3⟩ := ih hj
      refine ⟨?_, ?_, ?_⟩
      · simpa using h1
      · simp [Ne.symm hb, h2]
      · simpa using h3

theorem IndexByte_isSome {data : Bytes} {c : Nat} (h : c ∈ data) :
    ∃ i, IndexByte data c = some i := by
  cases hi : IndexByte data c with
  | none => exact absurd h (IndexByte_eq_none.mp hi)
  | some i => exact ⟨i, rfl⟩

/-! ## ScanLeases -/

theorem ScanLeases_of_mem {data : Bytes} {i : Nat} (atEOF : Bool)
    (h : IndexByte data rbrace = some i) :
    ScanLeases data atEOF = ⟨i + 1, some (data.take i), none⟩ := by
  have hlen := (IndexByte_eq_some h).2.2
  have hne : ¬ (atEOF = true ∧ data.length = 0) := by omega
  rw [ScanLeases, if_neg hne, h]

theorem ScanLeases_of_not_mem {data : Bytes} (atEOF : Bool) (h : rbrace ∉ data) :
    ScanLeases data atEOF = ⟨0, none, none⟩ := by
  simp [ScanLeases, IndexByte_eq_none.mpr h]

/-- C1: on a buffer that contains '}' and for either value of atEOF, ScanLeases
returns advance = i+1, the token data[0:i] and a nil error, where i is the index
of the first '}' of the buffer; the token does not contain '}'. -/
theorem C1_ScanLeases_first_terminator (data : Bytes) (atEOF : Bool) (h : rbrace ∈ data) :
    ∃ i, i < data.length ∧ data[i]? = some rbrace ∧
      (∀ j, j < i → data[j]? ≠ some rbrace) ∧
      ScanLeases data atEOF = ⟨i + 1, some (data.take i), none⟩ ∧
      rbrace ∉ data.take i := by
  obtain ⟨i, hi⟩ := IndexByte_isSome h
  obtain ⟨hsplit, hnot, hlt⟩ := IndexByte_eq_some hi
  refine ⟨i, hlt, ?_, ?_, ScanLeases_of_mem atEOF hi, hnot⟩
  · have hlen : (data.take i).length = i := by simp; omega
    have : (data.take i ++ rbrace :: data.drop (i + 1))[i]? = some rbrace := by
      rw [List.getElem?_append_right (by omega)]
      simp [hlen]
    rwa [← hsplit] at this
  · intro j hj hget
    apply hnot
    have hj2 : (data.take i)[j]? = some rbrace := by
      rw [List.getElem?_take_of_lt hj]
      exact hget
    exact List.getElem?_mem hj2

/-- Witness of C1 on the buffer ab}c}. -/
theorem C1_ScanLeases_first_terminator_witness :
    rbrace ∈ lit "ab\x7dc\x7d" ∧
    ∃ i, i < (lit "ab\x7dc\x7d").length ∧ (lit "ab\x7dc\x7d")[i]? = some rbrace ∧
      (∀ j, j < i → (lit "ab\x7dc\x7d")[j]? ≠ some rbrace) ∧
      ScanLeases (lit "ab\x7dc\x7d") true = ⟨i + 1, some ((lit "ab\x7dc\x7d").take i), none⟩ ∧
      rbrace ∉ (lit "ab\x7dc\x7d").take i :=
  ⟨by decide, C1_ScanLeases_first_terminator (lit "ab\x7dc\x7d") true (by decide)⟩

/-- C2: on a buffer without '}' (the empty buffer included) and for either
value of atEOF, ScanLeases consumes 0 bytes and returns a nil token and a nil
error. -/
theorem C2_ScanLeases_no_terminator (data : Bytes) (atEOF : Bool) (h : rbrace ∉ data) :
    ScanLeases data atEOF = ⟨0, none, none⟩ :=
  ScanLeases_of_not_mem atEOF h

/-- Witness of C2 on the buffer "lease 1" before end of input. -/
theorem C2_ScanLeases_no_terminator_witness :
    rbrace ∉ lit "lease 1" ∧ ScanLeases (lit "lease 1") false = ⟨0, none, none⟩ :=
  ⟨by decide, C2_ScanLeases_no_terminator (lit "lease 1") false (by decide)⟩

/-! ## The scanner loop with ScanLeases -/

theorem IndexByte_append_of_some {buf : Bytes} {c i : Nat} (x : Bytes)
    (h : IndexByte buf c = some i) : IndexByte (buf ++ x) c = some i := by
  obtain ⟨h1, h2, h3⟩ := IndexByte_eq_some h
  have hlen : (buf.take i).length = i := by simp; omega
  have := @IndexByte_append (buf.take i) (buf.drop (i + 1) ++ x) c h2
  rw [hlen] at this
  rw [← this]
  conv_lhs => rw [h1]
  simp

theorem blocksAux_of_none {s : Bytes} (cur : Bytes) (h : IndexByte s rbrace = none) :
    blocksAux cur s = [] := by
  induction s generalizing cur with
  | nil => rfl
  | cons b rest ih =>
    have hb : b ≠ rbrace := by
      intro e
      simp [IndexByte, e] at h
    have hr : IndexByte rest rbrace = none := by
      simpa [IndexByte, hb] using h
    simp [blocksAux, hb, ih _ hr]

theorem blocksAux_of_some {s : Bytes} {i : Nat} (cur : Bytes)
    (h : IndexByte s rbrace = some i) :
    blocksAux cur s = (cur ++ s.take i) :: blocksAux [] (s.drop (i + 1)) := by
  induction s generalizing cur i with
  | nil => simp [IndexByte] at h
  | cons b rest ih =>
    by_cases hb : b = rbrace
    · simp [IndexByte, hb] at h
      subst h
      simp [blocksAux, hb]
    · simp only [IndexByte, hb, if_false, Option.map_eq_some'] at h
      obtain ⟨j, hj, rfl⟩ := h
      simp [blocksAux, hb, ih _ hj]

theorem blocks_of_none {s : Bytes} (h : IndexByte s rbrace = none) : blocks s = [] :=
  blocksAux_of_none [] h

theorem blocks_of_some {s : Bytes} {i : Nat} (h : IndexByte s rbrace = some i) :
    blocks s = s.take i :: blocks (s.drop (i + 1)) := by
  simpa [blocks] using blocksAux_of_some [] h

theorem attempt_ScanLeases_none {buf : Bytes} (atEOF : Bool)
    (h : IndexByte buf rbrace = none) : attempt ScanLeases buf atEOF = .more buf := by
  have hs := ScanLeases_of_not_mem atEOF (IndexByte_eq_none.mp h)
  unfold attempt
  split
  · simp [hs]
  · rfl

theorem attempt_ScanLeases_some {buf : Bytes} {i : Nat} (atEOF : Bool)
    (h : IndexByte buf rbrace = some i) :
    attempt ScanLeases buf atEOF = .token (buf.take i) (buf.drop (i + 1)) := by
  have hs := ScanLeases_of_mem atEOF h
  have hlen := (IndexByte_eq_some h).2.2
  have hne : buf ≠ [] := by
    intro e
    simp [e] at hlen
  have hadv : ¬ buf.length < i + 1 := by omega
  simp [attempt, hne, hs, hadv]

theorem scanEOF_ScanLeases_none {buf : Bytes} (h : IndexByte buf rbrace = none) :
    scanEOF ScanLeases buf = (false, { buf := [], src := [], eof := true, tok := [] }) := by
  simp [scanEOF, attempt_ScanLeases_none true h]

theorem scanLoop_ScanLeases_none (src : List Bytes) (buf : Bytes)
    (h : IndexByte (buf ++ src.flatten) rbrace = none) :
    scanLoop ScanLeases src buf
      = (false, { buf := [], src := [], eof := true, tok := [] }) := by
  induction src generalizing buf with
  | nil =>
    have hb : IndexByte buf rbrace = none := by simpa using h
    simp [scanLoop, attempt_ScanLeases_none false hb, scanEOF_ScanLeases_none hb]
  | cons c cs ih =>
    have hb : IndexByte buf rbrace = none := by
      rw [IndexByte_eq_none] at h ⊢
      intro hm
      exact h (List.mem_append_left _ hm)
    have h2 : IndexByte ((buf ++ c) ++ cs.flatten) rbrace = none := by
      simpa using h
    simp [scanLoop, attempt_ScanLeases_none false hb, ih _ h2]

theorem scanLoop_ScanLeases_some (src : List Bytes) (buf : Bytes) {i : Nat}
    (h : IndexByte (buf ++ src.flatten) rbrace = some i) :
    ∃ buf1 src1, scanLoop ScanLeases src buf
        = (true, { buf := buf1, src := src1, eof := false,
                   tok := (buf ++ src.flatten).take i }) ∧
      buf1 ++ src1.flatten = (buf ++ src.flatten).drop (i + 1) := by
  induction src generalizing buf with
  | nil =>
    have hb : IndexByte buf rbrace = some i := by simpa using h
    exact ⟨buf.drop (i + 1), [], by simp [scanLoop, attempt_ScanLeases_some false hb]⟩
  | cons c cs ih =>
    cases hb : IndexByte buf rbrace with
    | some j =>
      have hj := IndexByte_append_of_some (c :: cs).flatten hb
      rw [h] at hj
      cases hj
      have hlen := (IndexByte_eq_some hb).2.2
      refine ⟨buf.drop (i + 1), c :: cs, ?_, ?_⟩
      · simp only [scanLoop, attempt_ScanLeases_some false hb]
        rw [List.take_append_of_le_length (by omega)]
      · rw [List.drop_append_of_le_length (by omega)]
    | none =>
      have h2 : IndexByte ((buf ++ c) ++ cs.flatten) rbrace = some i := by
        simpa using h
      obtain ⟨buf1, src1, he, hp⟩ := ih _ h2
      refine ⟨buf1, src1, ?_, ?_⟩
      · simp only [scanLoop, attempt_ScanLeases_none false hb, he]
        simp
      · simpa using hp

/-- With ScanLeases the scanner loop ends, and its tokens are the blocks of
the bytes not yet consumed, however the reader cuts them into chunks. -/
theorem tokens_ScanLeases (fuel : Nat) (s : Scanner) (he : s.eof = false)
    (hf : s.pending.length < fuel) :
    s.tokens ScanLeases fuel = some (blocks s.pending) := by
  induction fuel generalizing s with
  | zero => omega
  | succ n ih =>
    cases hi : IndexByte s.pending rbrace with
    | none =>
      have := scanLoop_ScanLeases_none s.src s.buf hi
      simp [Scanner.tokens, Scanner.Scan, he, this, blocks_of_none hi]
    | some i =>
      obtain ⟨buf1, src1, hs, hp⟩ := scanLoop_ScanLeases_some s.src s.buf hi
      have hlen := (IndexByte_eq_some hi).2.2
      have hrec := ih { buf := buf1, src := src1, eof := false,
                        tok := (s.buf ++ s.src.flatten).take i } rfl (by
        simp only [Scanner.pending] at hlen ⊢
        rw [hp, List.length_drop]
        simp only [Scanner.pending] at hf
        omega)
      simp only [Scanner.tokens, Scanner.Scan, he, hs]
      simp only [Bool.false_eq_true, if_false, hrec, Option.map_some', Scanner.Text]
      rw [blocks_of_some hi]
      simp only [Scanner.pending] at hp ⊢
      rw [hp]

theorem all_ScanLeases (s : Scanner) (he : s.eof = false) :
    s.all ScanLeases = blocks s.pending := by
  simp [Scanner.all, tokens_ScanLeases _ s he (Nat.lt_succ_self _)]

theorem all_ScanLeases_new (chunks : List Bytes) :
    (NewScanner chunks).all ScanLeases = blocks chunks.flatten := by
  rw [all_ScanLeases _ rfl]
  simp [Scanner.pending, NewScanner]

theorem blocksAux_append_of_not_mem (cur p t : Bytes) (h : rbrace ∉ t) :
    blocksAux cur (p ++ t) = blocksAux cur p := by
  induction p generalizing cur with
  | nil =>
    simp only [List.nil_append]
    rw [blocksAux_of_none cur (IndexByte_eq_none.mpr h)]
    rfl
  | cons b rest ih =>
    by_cases hb : b = rbrace
    · simp [blocksAux, hb, ih]
    · simp [blocksAux, hb, ih]

/-- C4: for a stream p ++ t where t has no '}' (p is any text, in particular
one that is empty or ends with '}'), the scanner loop run to end of input,
over any chunking of p ++ t, yields the blocks of p: the unterminated text t
is not returned. -/
theorem C4_trailing_text_dropped (p t : Bytes) (chunks : List Bytes)
    (ht : rbrace ∉ t) (hc : chunks.flatten = p ++ t) :
    (NewScanner chunks).all ScanLeases = (NewScanner [p]).all ScanLeases := by
  rw [all_ScanLeases_new, all_ScanLeases_new, hc]
  simp [blocks, blocksAux_append_of_not_mem [] p t ht]

/-- Witness of C4: the stream "ab}" ++ "cd" read in two chunks. -/
theorem C4_trailing_text_dropped_witness :
    rbrace ∉ lit "cd" ∧
    [lit "ab\x7dc", lit "d"].flatten = lit "ab\x7d" ++ lit "cd" ∧
    (NewScanner [lit "ab\x7dc", lit "d"]).all ScanLeases
      = (NewScanner [lit "ab\x7d"]).all ScanLeases :=
  ⟨by decide, by decide,
   C4_trailing_text_dropped (lit "ab\x7d") (lit "cd") [lit "ab\x7dc", lit "d"]
     (by decide) (by decide)⟩

/-! ## The scanner loop with ScanLines -/

theorem linesAux_of_none {s : Bytes} (cur : Bytes) (h : IndexByte s newline = none) :
    linesAux cur s = if cur ++ s = [] then [] else [dropCR (cur ++ s)] := by
  induction s generalizing cur with
  | nil => simp [linesAux]
  | cons b rest ih =>
    have hb : b ≠ newline := by
      intro e
      simp [IndexByte, e] at h
    have hr : IndexByte rest newline = none := by
      simpa [IndexByte, hb] using h
    simp [linesAux, hb, ih _ hr]

theorem linesAux_of_some {s : Bytes} {i : Nat} (cur : Bytes)
    (h : IndexByte s newline = some i) :
    linesAux cur s = dropCR (cur ++ s.take i) :: linesAux [] (s.drop (i + 1)) := by
  induction s generalizing cur i with
  | nil => simp [IndexByte] at h
  | cons b rest ih =>
    by_cases hb : b = newline
    · simp [IndexByte, hb] at h
      subst h
      simp [linesAux, hb]
    · simp only [IndexByte, hb, if_false, Option.map_eq_some'] at h
      obtain ⟨j, hj, rfl⟩ := h
      simp [linesAux, hb, ih _ hj]

theorem lines_of_none {s : Bytes} (h : IndexByte s newline = none) :
    lines s = if s = [] then [] else [dropCR s] := by
  simpa [lines] using linesAux_of_none [] h

theorem lines_of_some {s : Bytes} {i : Nat} (h : IndexByte s newline = some i) :
    lines s = dropCR (s.take i) :: lines (s.drop (i + 1)) := by
  simpa [lines] using linesAux_of_some [] h

theorem ScanLines_of_some {data : Bytes} {i : Nat} (atEOF : Bool)
    (h : IndexByte data newline = some i) :
    ScanLines data atEOF = ⟨i + 1, some (dropCR (data.take i)), none⟩ := by
  have hlen := (IndexByte_eq_some h).2.2
  have hne : ¬ (atEOF = true ∧ data.length = 0) := by omega
  rw [ScanLines, if_neg hne, h]

theorem attempt_ScanLines_some {buf : Bytes} {i : Nat} (atEOF : Bool)
    (h : IndexByte buf newline = some i) :
    attempt ScanLines buf atEOF = .token (dropCR (buf.take i)) (buf.drop (i + 1)) := by
  have hs := ScanLines_of_some atEOF h
  have hlen := (IndexByte_eq_some h).2.2
  have hne : buf ≠ [] := by
    intro e
    simp [e] at hlen
  have hadv : ¬ buf.length < i + 1 := by omega
  simp [attempt, hne, hs, hadv]

theorem attempt_ScanLines_none {buf : Bytes} (h : IndexByte buf newline = none) :
    attempt ScanLines buf false = .more buf := by
  unfold attempt
  split
  · simp [ScanLines, h]
  · rfl

theorem scanEOF_ScanLines_none {buf : Bytes} (h : IndexByte buf newline = none) :
    scanEOF ScanLines buf
      = if buf = [] then (false, { buf := [], src := [], eof := true, tok := [] })
        else (true, { buf := [], src := [], eof := true, tok := dropCR buf }) := by
  by_cases hb : buf = []
  · subst hb
    simp [scanEOF, attempt, ScanLines]
  · have hl : ¬ buf.length = 0 := by simpa using hb
    simp [scanEOF, attempt, ScanLines, h, hb]

theorem scanLoop_ScanLines_none (src : List Bytes) (buf : Bytes)
    (h : IndexByte (buf ++ src.flatten) newline = none) :
    scanLoop ScanLines src buf
      = if buf ++ src.flatten = []
        then (false, { buf := [], src := [], eof := true, tok := [] })
        else (true, { buf := [], src := [], eof := true,
                      tok := dropCR (buf ++ src.flatten) }) := by
  induction src generalizing buf with
  | nil =>
    have hb : IndexByte buf newline = none := by simpa using h
    simp [scanLoop, attempt_ScanLines_none hb, scanEOF_ScanLines_none hb]
  | cons c cs ih =>
    have hb : IndexByte buf newline = none := by
      rw [IndexByte_eq_none] at h ⊢
      intro hm
      exact h (List.mem_append_left _ hm)
    have h2 : IndexByte ((buf ++ c) ++ cs.flatten) newline = none := by
      simpa using h
    have := ih _ h2
    simp only [scanLoop, attempt_ScanLines_none hb, this]
    simp

theorem scanLoop_ScanLines_some (src : List Bytes) (buf : Bytes) {i : Nat}
    (h : IndexByte (buf ++ src.flatten) newline = some i) :
    ∃ buf1 src1, scanLoop ScanLines src buf
        = (true, { buf := buf1, src := src1, eof := false,
                   tok := dropCR ((buf ++ src.flatten).take i) }) ∧
      buf1 ++ src1.flatten = (buf ++ src.flatten).drop (i + 1) := by
  induction src generalizing buf with
  | nil =>
    have hb : IndexByte buf newline = some i := by simpa using h
    exact ⟨buf.drop (i + 1), [], by simp [scanLoop, attempt_ScanLines_some false hb]⟩
  | cons c cs ih =>
    cases hb : IndexByte buf newline with
    | some j =>
      have hj := IndexByte_append_of_some (c :: cs).flatten hb
      rw [h] at hj
      cases hj
      have hlen := (IndexByte_eq_some hb).2.2
      refine ⟨buf.drop (i + 1), c :: cs, ?_, ?_⟩
      · simp only [scanLoop, attempt_ScanLines_some false hb]
        rw [List.take_append_of_le_length (by omega)]
      · rw [List.drop_append_of_le_length (by omega)]
    | none =>
      have h2 : IndexByte ((buf ++ c) ++ cs.flatten) newline = some i := by
        simpa using h
      obtain ⟨buf1, src1, he, hp⟩ := ih _ h2
      refine ⟨buf1, src1, ?_, ?_⟩
      · simp only [scanLoop, attempt_ScanLines_none hb, he]
        simp
      · simpa using hp

/-- With ScanLines the scanner loop ends, and its tokens are the lines of the
bytes not yet consumed. -/
theorem tokens_ScanLines (fuel : Nat) (s : Scanner) (he : s.eof = false)
    (hf : s.pending.length < fuel) :
    s.tokens ScanLines fuel = some (lines s.pending) := by
  induction fuel generalizing s with
  | zero => omega
  | succ n ih =>
    cases hi : IndexByte s.pending newline with
    | none =>
      have hs := scanLoop_ScanLines_none s.src s.buf hi
      by_cases hp : s.pending = []
      · have hp2 : s.buf ++ s.src.flatten = [] := hp
        simp [Scanner.tokens, Scanner.Scan, he, hs, hp, hp2, lines, linesAux]
      · have hp2 : ¬ s.buf ++ s.src.flatten = [] := hp
        have hn : 0 < n := by
          have : 0 < s.pending.length := List.length_pos.mpr hp
          omega
        obtain ⟨m, rfl⟩ : ∃ m, n = m + 1 := ⟨n - 1, by omega⟩
        simp only [Scanner.tokens, Scanner.Scan, he, hs, lines_of_none hi, hp, hp2]
        simp [scanEOF, attempt, ScanLines, Scanner.Text, Scanner.pending]
    | some i =>
      obtain ⟨buf1, src1, hs, hp⟩ := scanLoop_ScanLines_some s.src s.buf hi
      have hlen := (IndexByte_eq_some hi).2.2
      have hrec := ih { buf := buf1, src := src1, eof := false,
                        tok := dropCR ((s.buf ++ s.src.flatten).take i) } rfl (by
        simp only [Scanner.pending] at hlen ⊢
        rw [hp, List.length_drop]
        simp only [Scanner.pending] at hf
        omega)
      simp only [Scanner.tokens, Scanner.Scan, he, hs]
      simp only [Bool.false_eq_true, if_false, hrec, Option.map_some', Scanner.Text]
      rw [lines_of_some hi]
      simp only [Scanner.pending] at hp ⊢
      rw [hp]

/-- The lines the line scanner of `Parse` gives for the text of an entry. -/
theorem all_ScanLines_reader (text : Bytes) :
    (NewScanner (NewReader text)).all ScanLines = lines text := by
  have h := tokens_ScanLines ((NewScanner (NewReader text)).pending.length + 1)
    (NewScanner (NewReader text)) rfl (Nat.lt_succ_self _)
  simp only [Scanner.all, h, Option.getD_some]
  simp [Scanner.pending, NewScanner, NewReader]

/-! ## Slices and setters -/

theorem slice_eq (s : Bytes) (lo k : Nat) :
    slice s (lo : Int) ((s.length : Int) - (k : Int))
      = if lo + k ≤ s.length then .ok (sl s lo k) else .error .sliceBounds := by
  unfold slice sl
  by_cases h : lo + k ≤ s.length
  · have h1 : (0 : Int) ≤ lo ∧ (lo : Int) ≤ (s.length : Int) - k ∧
        (s.length : Int) - k ≤ s.length := by omega
    have h2 : ((s.length : Int) - (k : Int)).toNat = s.length - k := by omega
    rw [if_pos h1, if_pos h, h2, Int.toNat_ofNat]
  · have h1 : ¬ ((0 : Int) ≤ lo ∧ (lo : Int) ≤ (s.length : Int) - k ∧
        (s.length : Int) - k ≤ s.length) := by omega
    rw [if_neg h1, if_neg h]

theorem setMac_eq {τ ε : Type} (l : Lease τ ε) (s : Bytes) :
    l.setMac s = if 21 ≤ s.length then .ok { l with mac := sl s 20 1 }
      else .error .sliceBounds := by
  have h := slice_eq s 20 1
  simp only [Nat.cast_ofNat, Nat.cast_one] at h
  unfold Lease.setMac
  rw [h]
  split_ifs <;> rfl

theorem setCircuitId_eq {τ ε : Type} (l : Lease τ ε) (s : Bytes) :
    l.setCircuitId s = if 29 ≤ s.length then .ok { l with circuitId := sl s 27 2 }
      else .error .sliceBounds := by
  have h := slice_eq s 27 2
  simp only [Nat.cast_ofNat] at h
  unfold Lease.setCircuitId
  rw [h]
  split_ifs <;> rfl

theorem setBindingState_eq {τ ε : Type} (l : Lease τ ε) (s : Bytes) :
    l.setBindingState s = if 17 ≤ s.length then .ok { l with binding := sl s 16 1 }
      else .error .sliceBounds := by
  have h := slice_eq s 16 1
  simp only [Nat.cast_ofNat, Nat.cast_one] at h
  unfold Lease.setBindingState
  rw [h]
  split_ifs <;> rfl

theorem setStarts_eq {τ ε : Type} (T : TimeLib τ ε) (l : Lease τ ε) (s : Bytes) :
    l.setStarts T s
      = if 12 ≤ s.length then
          .ok { l with e := appendErr l.e (LeaseTime T (sl s 11 1)).2,
                       starts := (LeaseTime T (sl s 11 1)).1 }
        else .error .sliceBounds := by
  have h := slice_eq s 11 1
  simp only [Nat.cast_ofNat, Nat.cast_one] at h
  unfold Lease.setStarts
  rw [h]
  split_ifs <;> rfl

theorem setEnds_eq {τ ε : Type} (T : TimeLib τ ε) (l : Lease τ ε) (s : Bytes) :
    l.setEnds T s
      = if 10 ≤ s.length then
          .ok { l with e := appendErr l.e (LeaseTime T (sl s 9 1)).2,
                       ends := (LeaseTime T (sl s 9 1)).1 }
        else .error .sliceBounds := by
  have h := slice_eq s 9 1
  simp only [Nat.cast_ofNat, Nat.cast_one] at h
  unfold Lease.setEnds
  rw [h]
  split_ifs <;> rfl

theorem appendErr_eq {ε : Type} (e : List ε) (o : Option ε) :
    appendErr e o = e ++ [o].filterMap id := by
  cases o <;> simp [appendErr]

/-! ## The inner loop of Parse -/

theorem filterMap_cons_toList {α β : Type} (f : α → Option β) (a : α) (l : List α) :
    List.filterMap f (a :: l) = (f a).toList ++ List.filterMap f l := by
  cases h : f a <;> simp [List.filterMap_cons, h]

theorem onMarker_eq {τ ε : Type} (line marker : Bytes)
    (set : Lease τ ε → Bytes → Except Panic (Lease τ ε)) (l : Lease τ ε)
    (c : Prop) [Decidable c] (g : Lease τ ε → Lease τ ε)
    (hset : ∀ l, set l line = if c then .ok (g l) else .error .sliceBounds) :
    onMarker line marker set l
      = if Contains line marker = true → c
        then .ok (if Contains line marker then g l else l)
        else .error .sliceBounds := by
  unfold onMarker
  by_cases hm : Contains line marker = true
  · by_cases hc : c
    · simp [hm, hc, hset]
    · simp [hm, hc, hset]
  · simp [hm]

theorem onMarker_bind {τ ε : Type} (line marker : Bytes)
    (set : Lease τ ε → Bytes → Except Panic (Lease τ ε)) (l : Lease τ ε)
    (c : Prop) [Decidable c] (g : Lease τ ε → Lease τ ε)
    (f : Lease τ ε → Except Panic (Lease τ ε))
    (hset : ∀ l, set l line = if c then .ok (g l) else .error .sliceBounds) :
    (onMarker line marker set l >>= f)
      = if Contains line marker = true → c
        then f (if Contains line marker then g l else l)
        else .error .sliceBounds := by
  rw [onMarker_eq line marker set l c g hset]
  split_ifs <;> rfl

/-- The body of the inner loop panics exactly on a line too short for one of
its slices, and otherwise updates the lease as `fieldLineT` says. -/
theorem fieldLine_eq {τ ε : Type} (T : TimeLib τ ε) (l : Lease τ ε) (line : Bytes) :
    fieldLine T l line
      = if lineSafe line then .ok (fieldLineT T l line) else .error .sliceBounds := by
  unfold fieldLine
  rw [onMarker_bind line mEnds (Lease.setEnds T) l _ _ _ (fun l => setEnds_eq T l line)]
  by_cases h1 : Contains line mEnds = true → 10 ≤ line.length
  swap
  · have : ¬ lineSafe line := fun h => h1 h.1
    rw [if_neg h1, if_neg this]
  rw [if_pos h1,
    onMarker_bind line mStarts (Lease.setStarts T) _ _ _ _ (fun l => setStarts_eq T l line)]
  by_cases h2 : Contains line mStarts = true → 12 ≤ line.length
  swap
  · have : ¬ lineSafe line := fun h => h2 h.2.1
    rw [if_neg h2, if_neg this]
  rw [if_pos h2,
    onMarker_bind line mHardware Lease.setMac _ _ _ _ (fun l => setMac_eq l line)]
  by_cases h3 : Contains line mHardware = true → 21 ≤ line.length
  swap
  · have : ¬ lineSafe line := fun h => h3 h.2.2.1
    rw [if_neg h3, if_neg this]
  rw [if_pos h3,
    onMarker_bind line mCircuitId Lease.setCircuitId _ _ _ _
      (fun l => setCircuitId_eq l line)]
  by_cases h4 : Contains line mCircuitId = true → 29 ≤ line.length
  swap
  · have : ¬ lineSafe line := fun h => h4 h.2.2.2.1
    rw [if_neg h4, if_neg this]
  rw [if_pos h4,
    onMarker_eq line mBinding Lease.setBindingState _ _ _
      (fun l => setBindingState_eq l line)]
  by_cases h5 : Contains line mBinding = true → 17 ≤ line.length
  swap
  · have : ¬ lineSafe line := fun h => h5 h.2.2.2.2
    rw [if_neg h5, if_neg this]
  have hs : lineSafe line := ⟨h1, h2, h3, h4, h5⟩
  rw [if_pos h5, if_pos hs]
  congr 1
  clear h1 h2 h3 h4 h5 hs
  unfold fieldLineT lineStamps
  cases Contains line mEnds <;> cases Contains line mStarts <;>
    cases Contains line mHardware <;> cases Contains line mCircuitId <;>
    cases Contains line mBinding <;> simp [appendErr_eq, filterMap_cons_toList]

theorem scanFields_eq_foldl {τ ε : Type} (T : TimeLib τ ε) (l : Lease τ ε)
    (rest : List Bytes) :
    scanFields T l rest
      = if ∀ line ∈ rest, lineSafe line then .ok (rest.foldl (fieldLineT T) l)
        else .error .sliceBounds := by
  induction rest generalizing l with
  | nil => simp [scanFields]
  | cons line rest ih =>
    rw [scanFields, fieldLine_eq]
    by_cases h : lineSafe line
    · simp only [h, if_true, ih, List.forall_mem_cons, true_and, List.foldl_cons]
    · simp [h]

theorem lastWith_concat (marker : Bytes) (rest : List Bytes) (line : Bytes) :
    lastWith marker (rest ++ [line])
      = if Contains line marker then some line else lastWith marker rest := by
  unfold lastWith
  cases h : Contains line marker <;> simp [List.filter_append, h, List.getLast?_concat]

theorem foldl_fieldLineT {τ ε : Type} (T : TimeLib τ ε) (l : Lease τ ε)
    (rest : List Bytes) : rest.foldl (fieldLineT T) l = fieldsOf T l rest := by
  induction rest using List.reverseRecOn with
  | nil => simp [fieldsOf, lastWith]
  | append_singleton rest line ih =>
    rw [List.foldl_append, List.foldl_cons, List.foldl_nil, ih]
    unfold fieldLineT fieldsOf
    simp only [lastWith_concat]
    cases Contains line mEnds <;> cases Contains line mStarts <;>
      cases Contains line mHardware <;> cases Contains line mCircuitId <;>
      cases Contains line mBinding <;> simp [List.flatMap_append]

/-- The inner loop of Parse panics exactly when one of the lines is too
short for one of its slices, and otherwise yields the lease `fieldsOf`. -/
theorem scanFields_eq {τ ε : Type} (T : TimeLib τ ε) (l : Lease τ ε) (rest : List Bytes) :
    scanFields T l rest
      = if ∀ line ∈ rest, lineSafe line then .ok (fieldsOf T l rest)
        else .error .sliceBounds := by
  rw [scanFields_eq_foldl, foldl_fieldLineT]

/-! ## The line loop of Parse -/

theorem commit_new {τ ε : Type} (T : TimeLib τ ε) (leases : Store τ ε) :
    commit leases (Lease.new T) = leases := by
  simp [commit, Lease.new, Lease.Error, Lease.Address]

theorem parseLines_skip {τ ε : Type} (T : TimeLib τ ε) (leases : Store τ ε)
    (pre ls : List Bytes) (h : ∀ x ∈ pre, Contains x mLease = false) :
    parseLines T leases (pre ++ ls) = parseLines T leases ls := by
  induction pre with
  | nil => rfl
  | cons x pre ih =>
    have hx : Contains x mLease = false := h x (List.mem_cons_self _ _)
    have hp : ∀ y ∈ pre, Contains y mLease = false :=
      fun y hy => h y (List.mem_cons_of_mem _ hy)
    simp [parseLines, hx, commit_new, ih hp]

/-- The line loop on a line that contains "lease": the address is the
second field of that line, all the lines after it are field lines. -/
theorem parseLines_decl {τ ε : Type} (T : TimeLib τ ε) (leases : Store τ ε)
    (decl : Bytes) (rest : List Bytes) (h : Contains decl mLease = true) :
    parseLines T leases (decl :: rest)
      = match (Fields decl)[1]? with
        | none => ⟨leases, some .indexOutOfRange⟩
        | some a =>
          if ∀ line ∈ rest, lineSafe line then
            ⟨commit leases (fieldsOf T ((Lease.new T).setAddress a) rest), none⟩
          else ⟨leases, some .sliceBounds⟩ := by
  simp only [parseLines, h, if_true, index]
  cases (Fields decl)[1]? with
  | none => rfl
  | some a =>
    simp only [scanFields_eq]
    split_ifs <;> rfl

theorem parseEntry_eq {τ ε : Type} (T : TimeLib τ ε) (leases : Store τ ε) (text : Bytes) :
    parseEntry T leases text = parseLines T leases (lines text) := by
  rw [parseEntry, all_ScanLines_reader]

/-! ## The store -/

theorem get_assign_self {τ ε : Type} (m : Store τ ε) (k : Bytes) (v : Lease τ ε) :
    (m.assign k v).get k = some v := by
  induction m with
  | nil => simp [Store.assign, Store.get]
  | cons p rest ih =>
    obtain ⟨k1, v1⟩ := p
    by_cases h : k1 = k
    · simp [Store.assign, Store.get, h]
    · simp [Store.assign, Store.get, h, ih]

/-! ## Fields -/

theorem fieldsAux_ne_nil (s : Bytes) (skip : Nat) (cur : Bytes) :
    ∀ f ∈ fieldsAux s skip cur, f ≠ [] := by
  induction s generalizing skip cur with
  | nil =>
    intro f hf
    unfold fieldsAux flushField at hf
    split_ifs at hf with h
    · simp at hf
    · simp only [List.mem_singleton] at hf
      rw [hf]
      exact h
  | cons b rest ih =>
    cases skip with
    | succ n =>
      intro f hf
      rw [fieldsAux] at hf
      exact ih _ _ f hf
    | zero =>
      intro f hf
      rw [fieldsAux] at hf
      split at hf
      · exact ih _ _ f hf
      · rcases List.mem_append.mp hf with h1 | h1
        · unfold flushField at h1
          split_ifs at h1 with h
          · simp at h1
          · simp only [List.mem_singleton] at h1
            rw [h1]
            exact h
        · exact ih _ _ f h1

/-- A field of `strings.Fields` is not empty. -/
theorem Fields_ne_nil (s : Bytes) : ∀ f ∈ Fields s, f ≠ [] :=
  fieldsAux_ne_nil s 0 []

/-! ## Entries with one line for each marker -/

theorem slice_ok {s : Bytes} (lo k : Nat) {v : Bytes}
    (h : slice s (lo : Int) ((s.length : Int) - (k : Int)) = .ok v) :
    lo + k ≤ s.length ∧ v = sl s lo k := by
  rw [slice_eq] at h
  split_ifs at h with hle
  · cases h
    exact ⟨hle, rfl⟩

theorem eq_of_filter_singleton {p : Bytes → Bool} {rest : List Bytes} {L x : Bytes}
    (h : rest.filter p = [L]) (hx : x ∈ rest) (hp : p x = true) : x = L := by
  have : x ∈ rest.filter p := List.mem_filter.mpr ⟨hx, hp⟩
  rw [h] at this
  simpa using this

theorem lastWith_of_filter_singleton {marker : Bytes} {rest : List Bytes} {L : Bytes}
    (h : rest.filter (fun line => Contains line marker) = [L]) :
    lastWith marker rest = some L := by
  simp [lastWith, h]

theorem stamps_no_error {τ ε : Type} (T : TimeLib τ ε) (rest : List Bytes)
    (h : ∀ line ∈ rest,
      (Contains line mEnds = true → (LeaseTime T (sl line 9 1)).2 = none) ∧
      (Contains line mStarts = true → (LeaseTime T (sl line 11 1)).2 = none)) :
    (rest.flatMap lineStamps).filterMap (fun d => (LeaseTime T d).2) = [] := by
  rw [List.filterMap_eq_nil_iff]
  intro d hd
  obtain ⟨line, hl, hd⟩ := List.mem_flatMap.mp hd
  obtain ⟨h1, h2⟩ := h line hl
  unfold lineStamps at hd
  rcases List.mem_append.mp hd with hd | hd
  · split_ifs at hd with hc
    · simp only [List.mem_singleton] at hd
      rw [hd]
      exact h1 hc
    · simp at hd
  · split_ifs at hd with hc
    · simp only [List.mem_singleton] at hd
      rw [hd]
      exact h2 hc
    · simp at hd

theorem commit_valid {τ ε : Type} (leases : Store τ ε) (l : Lease τ ε)
    (he : l.e = []) (ha : l.address ≠ []) :
    commit leases l = leases.assign l.address l := by
  have : 0 < l.address.length := List.length_pos.mpr ha
  simp [commit, Lease.Error, Lease.Address, he, this, AddLease]

/-- C5: for an entry whose first line contains "lease" and has at least two
fields, and in whose following lines each of the five markers is contained
in exactly one line, each of these lines in range for its slice and both
timestamps accepted by the time library, Parse commits one record under the
second field of the first line, with mac = L[20:len-1], circuitId =
L[27:len-2], binding = L[16:len-1], starts = LeaseTime(L[11:len-1]) and ends =
LeaseTime(L[9:len-1]) of the lines of the respective markers. -/
theorem C5_fields_at_fixed_offsets {τ ε : Type} (T : TimeLib τ ε) (leases : Store τ ε)
    (text decl : Bytes) (rest : List Bytes) (f0 a : Bytes) (more : List Bytes)
    (hw cid bs ss en vmac vcid vbind dstarts dends : Bytes)
    (hlines : lines text = decl :: rest)
    (hdecl : Contains decl mLease = true)
    (hfields : Fields decl = f0 :: a :: more)
    (hhw : rest.filter (fun line => Contains line mHardware) = [hw])
    (hcid : rest.filter (fun line => Contains line mCircuitId) = [cid])
    (hbs : rest.filter (fun line => Contains line mBinding) = [bs])
    (hss : rest.filter (fun line => Contains line mStarts) = [ss])
    (hen : rest.filter (fun line => Contains line mEnds) = [en])
    (smac : slice hw 20 ((hw.length : Int) - 1) = .ok vmac)
    (scid : slice cid 27 ((cid.length : Int) - 2) = .ok vcid)
    (sbind : slice bs 16 ((bs.length : Int) - 1) = .ok vbind)
    (sstarts : slice ss 11 ((ss.length : Int) - 1) = .ok dstarts)
    (sends : slice en 9 ((en.length : Int) - 1) = .ok dends)
    (pstarts : (LeaseTime T dstarts).2 = none)
    (pends : (LeaseTime T dends).2 = none) :
    parseEntry T leases text
      = ⟨leases.assign a
          { address := a, starts := (LeaseTime T dstarts).1, ends := (LeaseTime T dends).1,
            binding := vbind, mac := vmac, circuitId := vcid, e := [] }, none⟩ ∧
    (parseEntry T leases text).leases.get a
      = some { address := a, starts := (LeaseTime T dstarts).1,
               ends := (LeaseTime T dends).1, binding := vbind, mac := vmac,
               circuitId := vcid, e := [] } := by
  obtain ⟨lmac, rfl⟩ := slice_ok 20 1 smac
  obtain ⟨lcid, rfl⟩ := slice_ok 27 2 scid
  obtain ⟨lbind, rfl⟩ := slice_ok 16 1 sbind
  obtain ⟨lstarts, rfl⟩ := slice_ok 11 1 sstarts
  obtain ⟨lends, rfl⟩ := slice_ok 9 1 sends
  have hsafe : ∀ line ∈ rest, lineSafe line := by
    intro line hl
    refine ⟨fun h => ?_, fun h => ?_, fun h => ?_, fun h => ?_, fun h => ?_⟩
    · rw [eq_of_filter_singleton hen hl h]; omega
    · rw [eq_of_filter_singleton hss hl h]; omega
    · rw [eq_of_filter_singleton hhw hl h]; omega
    · rw [eq_of_filter_singleton hcid hl h]; omega
    · rw [eq_of_filter_singleton hbs hl h]; omega
  have herr := stamps_no_error T rest (fun line hl =>
    ⟨fun h => by rw [eq_of_filter_singleton hen hl h]; exact pends,
     fun h => by rw [eq_of_filter_singleton hss hl h]; exact pstarts⟩)
  have ha : a ≠ [] := Fields_ne_nil decl a (by rw [hfields]; simp)
  have hfo : fieldsOf T ((Lease.new T).setAddress a) rest
      = { address := a, starts := (LeaseTime T (sl ss 11 1)).1,
          ends := (LeaseTime T (sl en 9 1)).1, binding := sl bs 16 1, mac := sl hw 20 1,
          circuitId := sl cid 27 2, e := [] } := by
    simp [fieldsOf, lastWith_of_filter_singleton hhw, lastWith_of_filter_singleton hcid,
      lastWith_of_filter_singleton hbs, lastWith_of_filter_singleton hss,
      lastWith_of_filter_singleton hen, herr, Lease.new, Lease.setAddress]
  have hmain : parseEntry T leases text
      = ⟨leases.assign a
          { address := a, starts := (LeaseTime T (sl ss 11 1)).1,
            ends := (LeaseTime T (sl en 9 1)).1, binding := sl bs 16 1, mac := sl hw 20 1,
            circuitId := sl cid 27 2, e := [] }, none⟩ := by
    rw [parseEntry_eq, hlines, parseLines_decl T leases decl rest hdecl, hfields]
    simp only [List.getElem?_cons_succ, List.getElem?_cons_zero, if_pos hsafe, hfo]
    rw [commit_valid _ _ rfl ha]
  exact ⟨hmain, by rw [hmain]; exact get_assign_self _ _ _⟩

/-- Witness of C5: the entry `fullEntry`, parsed into the empty store with
the time library `sampleTime`. -/
theorem C5_fields_at_fixed_offsets_witness :
    parseEntry sampleTime [] fullEntry
      = ⟨[(lit "10.0.0.7",
           { address := lit "10.0.0.7", starts := lit "2023/01/10 08:00:00",
             ends := lit "2023/01/10 20:00:00", binding := lit "free",
             mac := lit "aa:bb:cc:dd:ee:01", circuitId := lit "eth0/1", e := [] })], none⟩ ∧
    (parseEntry sampleTime [] fullEntry).leases.get (lit "10.0.0.7")
      = some { address := lit "10.0.0.7", starts := lit "2023/01/10 08:00:00",
               ends := lit "2023/01/10 20:00:00", binding := lit "free",
               mac := lit "aa:bb:cc:dd:ee:01", circuitId := lit "eth0/1", e := [] } :=
  C5_fields_at_fixed_offsets sampleTime [] fullEntry (lit "lease 10.0.0.7 \x7b")
    [lit "  starts 2 2023/01/10 08:00:00;", lit "  ends 2 2023/01/10 20:00:00;",
     lit "  binding state free;", lit "  hardware ethernet aa:bb:cc:dd:ee:01;",
     lit "  option agent.circuit-id \x22eth0/1\x22;"]
    (lit "lease") (lit "10.0.0.7") [lit "\x7b"]
    (lit "  hardware ethernet aa:bb:cc:dd:ee:01;")
    (lit "  option agent.circuit-id \x22eth0/1\x22;")
    (lit "  binding state free;")
    (lit "  starts 2 2023/01/10 08:00:00;")
    (lit "  ends 2 2023/01/10 20:00:00;")
    (lit "aa:bb:cc:dd:ee:01") (lit "eth0/1") (lit "free")
    (lit "2023/01/10 08:00:00") (lit "2023/01/10 20:00:00")
    (by decide) (by decide) (by decide) (by decide) (by decide) (by decide) (by decide)
    (by decide) (by decide) (by decide) (by decide) (by decide) (by decide) (by decide)
    (by decide)

/-- C6: parsing the stream that consists of the example entry, however it is
cut into chunks, into the empty store of NewLeases yields exactly one
record, keyed "10.0.0.5", with address "10.0.0.5", mac "aa:bb:cc:dd:ee:ff",
binding state "active", an empty circuit id, the times the time library
gives for "2023/01/10 08:00:00" and "2023/01/10 20:00:00", and no error, when
the time library accepts these two timestamps. -/
theorem C6_example_entry {τ ε : Type} (T : TimeLib τ ε) (chunks : List Bytes)
    (hc : chunks.flatten = exampleStream)
    (hs : (LeaseTime T (lit "2023/01/10 08:00:00")).2 = none)
    (he : (LeaseTime T (lit "2023/01/10 20:00:00")).2 = none) :
    Parse T (NewLeases chunks)
      = ⟨[(lit "10.0.0.5",
           { address := lit "10.0.0.5",
             starts := (LeaseTime T (lit "2023/01/10 08:00:00")).1,
             ends := (LeaseTime T (lit "2023/01/10 20:00:00")).1,
             binding := lit "active", mac := lit "aa:bb:cc:dd:ee:ff",
             circuitId := [], e := [] })], none⟩ := by
  have hb : (NewScanner chunks).all ScanLeases = [exampleEntry] := by
    rw [all_ScanLeases_new, hc]
    rfl
  have hl : lines exampleEntry = lit "lease 10.0.0.5 \x7b" :: exampleFields := by decide
  have hf : (Fields (lit "lease 10.0.0.5 \x7b"))[1]? = some (lit "10.0.0.5") := by decide
  have hsafe : ∀ line ∈ exampleFields, lineSafe line := by decide
  have h1 : lastWith mStarts exampleFields = some (lit "  starts 2 2023/01/10 08:00:00;") := by
    decide
  have h2 : lastWith mEnds exampleFields = some (lit "  ends 2 2023/01/10 20:00:00;") := by
    decide
  have h3 : lastWith mBinding exampleFields = some (lit "  binding state active;") := by
    decide
  have h4 : lastWith mHardware exampleFields
      = some (lit "  hardware ethernet aa:bb:cc:dd:ee:ff;") := by decide
  have h5 : lastWith mCircuitId exampleFields = none := by decide
  have h6 : exampleFields.flatMap lineStamps
      = [lit "2023/01/10 08:00:00", lit "2023/01/10 20:00:00"] := by decide
  have s1 : sl (lit "  starts 2 2023/01/10 08:00:00;") 11 1 = lit "2023/01/10 08:00:00" := by
    decide
  have s2 : sl (lit "  ends 2 2023/01/10 20:00:00;") 9 1 = lit "2023/01/10 20:00:00" := by
    decide
  have s3 : sl (lit "  binding state active;") 16 1 = lit "active" := by decide
  have s4 : sl (lit "  hardware ethernet aa:bb:cc:dd:ee:ff;") 20 1
      = lit "aa:bb:cc:dd:ee:ff" := by decide
  have hfo : fieldsOf T ((Lease.new T).setAddress (lit "10.0.0.5")) exampleFields
      = { address := lit "10.0.0.5",
          starts := (LeaseTime T (lit "2023/01/10 08:00:00")).1,
          ends := (LeaseTime T (lit "2023/01/10 20:00:00")).1,
          binding := lit "active", mac := lit "aa:bb:cc:dd:ee:ff",
          circuitId := [], e := [] } := by
    simp only [fieldsOf, h1, h2, h3, h4, h5, h6, s1, s2, s3, s4, filterMap_cons_toList, hs, he]
    simp [Lease.new, Lease.setAddress]
  have hpe : parseEntry T [] exampleEntry
      = ⟨[(lit "10.0.0.5",
           { address := lit "10.0.0.5",
             starts := (LeaseTime T (lit "2023/01/10 08:00:00")).1,
             ends := (LeaseTime T (lit "2023/01/10 20:00:00")).1,
             binding := lit "active", mac := lit "aa:bb:cc:dd:ee:ff",
             circuitId := [], e := [] })], none⟩ := by
    rw [parseEntry_eq, hl, parseLines_decl T [] _ _ (by decide), hf]
    simp only [if_pos hsafe, hfo]
    rw [commit_valid _ _ rfl (show lit "10.0.0.5" ≠ [] by decide)]
    rfl
  simp only [Parse, NewLeases, hb, parseEntries, hpe]

/-- Witness of C6 with the time library `sampleTime`, the stream read in
one chunk. -/
theorem C6_example_entry_witness :
    Parse sampleTime (NewLeases [exampleStream])
      = ⟨[(lit "10.0.0.5",
           { address := lit "10.0.0.5", starts := lit "2023/01/10 08:00:00",
             ends := lit "2023/01/10 20:00:00", binding := lit "active",
             mac := lit "aa:bb:cc:dd:ee:ff", circuitId := [], e := [] })], none⟩ :=
  C6_example_entry sampleTime [exampleStream] (by decide) (by decide) (by decide)

/-! ## Which blocks are lease entries -/

/-- The lines of an entry either never contain "lease", or split at the
first line that does. -/
theorem exists_first_lease (ls : List Bytes) :
    (∀ x ∈ ls, Contains x mLease = false) ∨
    ∃ pre decl rest, ls = pre ++ decl :: rest ∧
      (∀ x ∈ pre, Contains x mLease = false) ∧ Contains decl mLease = true := by
  induction ls with
  | nil => exact Or.inl (by simp)
  | cons x xs ih =>
    cases hx : Contains x mLease with
    | true => exact Or.inr ⟨[], x, xs, rfl, by simp, hx⟩
    | false =>
      rcases ih with h | ⟨pre, decl, rest, h1, h2, h3⟩
      · left
        intro y hy
        rcases List.mem_cons.mp hy with rfl | hy
        · exact hx
        · exact h y hy
      · right
        refine ⟨x :: pre, decl, rest, by simp [h1], ?_, h3⟩
        intro y hy
        rcases List.mem_cons.mp hy with rfl | hy
        · exact hx
        · exact h2 y hy

theorem parseLines_no_lease {τ ε : Type} (T : TimeLib τ ε) (leases : Store τ ε)
    (ls : List Bytes) (h : ∀ x ∈ ls, Contains x mLease = false) :
    parseLines T leases ls = ⟨leases, none⟩ := by
  have := parseLines_skip T leases ls [] h
  simpa [parseLines] using this

theorem fieldsOf_address {τ ε : Type} (T : TimeLib τ ε) (l : Lease τ ε) (rest : List Bytes) :
    (fieldsOf T l rest).address = l.address := rfl

theorem commit_cases {τ ε : Type} (leases : Store τ ε) (l : Lease τ ε) :
    commit leases l = leases ∨ commit leases l = leases.assign l.address l := by
  unfold commit AddLease Lease.Address
  split_ifs
  · exact Or.inl rfl
  · exact Or.inr rfl
  · exact Or.inl rfl

/-- Counterexample to C7: the block "host release-box {" does not begin with
the token "lease", and Parse commits a record keyed "release-box" from it; the
block of the comment line "# This lease file was written by isc-dhcp" commits
a record keyed "This". -/
theorem C7_counterexample :
    (Fields hostEntry).head? ≠ some mLease ∧
    parseEntry sampleTime [] hostEntry
      = ⟨[(lit "release-box", (Lease.new sampleTime).setAddress (lit "release-box"))],
         none⟩ ∧
    Parse sampleTime (NewLeases [hostEntry ++ [rbrace]])
      = ⟨[(lit "release-box", (Lease.new sampleTime).setAddress (lit "release-box"))],
         none⟩ ∧
    (Fields commentEntry).head? ≠ some mLease ∧
    parseEntry sampleTime [] commentEntry
      = ⟨[(lit "This", (Lease.new sampleTime).setAddress (lit "This"))], none⟩ := by
  decide

/-- C7, amended: a block is a lease entry when one of its lines contains the
text "lease", wherever in the line.  Parse of a block either leaves the store
as it was, or assigns one record under the second field of the first line
that contains "lease", the address of the record being that field. -/
theorem C7_lease_entry_by_substring {τ ε : Type} (T : TimeLib τ ε) (leases : Store τ ε)
    (text : Bytes) :
    (parseEntry T leases text).leases = leases ∨
    ∃ pre decl rest a l, lines text = pre ++ decl :: rest ∧
      (∀ x ∈ pre, Contains x mLease = false) ∧ Contains decl mLease = true ∧
      (Fields decl)[1]? = some a ∧ l.address = a ∧
      parseEntry T leases text = ⟨leases.assign a l, none⟩ := by
  rw [parseEntry_eq]
  rcases exists_first_lease (lines text) with h | ⟨pre, decl, rest, h1, h2, h3⟩
  · left
    rw [parseLines_no_lease T leases _ h]
  · rw [h1, parseLines_skip T leases pre _ h2, parseLines_decl T leases decl rest h3]
    cases hf : (Fields decl)[1]? with
    | none => exact Or.inl rfl
    | some a =>
      by_cases hs : ∀ line ∈ rest, lineSafe line
      · simp only [if_pos hs]
        rcases commit_cases leases (fieldsOf T ((Lease.new T).setAddress a) rest) with hc | hc
        · left
          rw [hc]
        · right
          refine ⟨pre, decl, rest, a, fieldsOf T ((Lease.new T).setAddress a) rest, rfl, h2,
            h3, hf, rfl, ?_⟩
          rw [hc]
          rfl
      · left
        simp only [if_neg hs]

/-- C8: for a block none of whose lines contains "lease", and for every
store, Parse of the block ends without a panic and leaves the store as it
was. -/
theorem C8_no_declaration_no_change {τ ε : Type} (T : TimeLib τ ε) (leases : Store τ ε)
    (text : Bytes) (h : ∀ line ∈ lines text, Contains line mLease = false) :
    parseEntry T leases text = ⟨leases, none⟩ := by
  rw [parseEntry_eq]
  exact parseLines_no_lease T leases _ h

/-- Witness of C8: a host stanza parsed into a store with one record. -/
theorem C8_no_declaration_no_change_witness :
    (∀ line ∈ lines groupEntry, Contains line mLease = false) ∧
    parseEntry sampleTime oneStore groupEntry = ⟨oneStore, none⟩ :=
  ⟨by decide, C8_no_declaration_no_change sampleTime oneStore groupEntry (by decide)⟩

/-! ## Timestamps that do not parse -/

theorem commit_errors {τ ε : Type} (leases : Store τ ε) (l : Lease τ ε) (h : l.e ≠ []) :
    commit leases l = leases := by
  have : 0 < l.e.length := List.length_pos.mpr h
  simp [commit, Lease.Error, this]

theorem fieldsOf_e_ne_nil {τ ε : Type} (T : TimeLib τ ε) (l : Lease τ ε)
    (rest : List Bytes) (line d : Bytes) (hl : line ∈ rest) (hd : d ∈ lineStamps line)
    (he : (LeaseTime T d).2 ≠ none) : (fieldsOf T l rest).e ≠ [] := by
  have hmem : d ∈ rest.flatMap lineStamps := List.mem_flatMap.mpr ⟨line, hl, hd⟩
  obtain ⟨err, herr⟩ := Option.ne_none_iff_exists'.mp he
  have : err ∈ (rest.flatMap lineStamps).filterMap (fun d => (LeaseTime T d).2) :=
    List.mem_filterMap.mpr ⟨d, hmem, herr⟩
  intro h
  simp only [fieldsOf, List.append_eq_nil] at h
  rw [h.2] at this
  simp at this

theorem parseLines_decl_rejects {τ ε : Type} (T : TimeLib τ ε) (leases : Store τ ε)
    (decl : Bytes) (rest : List Bytes) (line d : Bytes)
    (hdecl : Contains decl mLease = true) (hl : line ∈ rest) (hd : d ∈ lineStamps line)
    (he : (LeaseTime T d).2 ≠ none) :
    (parseLines T leases (decl :: rest)).leases = leases := by
  rw [parseLines_decl T leases decl rest hdecl]
  cases (Fields decl)[1]? with
  | none => rfl
  | some a =>
    by_cases hs : ∀ line ∈ rest, lineSafe line
    · simp only [if_pos hs]
      rw [commit_errors _ _ (fieldsOf_e_ne_nil T _ rest line d hl hd he)]
    · simp only [if_neg hs]

theorem parseLines_rejects {τ ε : Type} (T : TimeLib τ ε) (leases : Store τ ε)
    (pre : List Bytes) (decl : Bytes) (rest : List Bytes) (line d : Bytes)
    (hdecl : Contains decl mLease = true) (hl : line ∈ rest) (hd : d ∈ lineStamps line)
    (he : (LeaseTime T d).2 ≠ none) :
    (parseLines T leases (pre ++ decl :: rest)).leases = leases := by
  induction pre with
  | nil => exact parseLines_decl_rejects T leases decl rest line d hdecl hl hd he
  | cons x pre ih =>
    cases hx : Contains x mLease with
    | true =>
      exact parseLines_decl_rejects T leases x (pre ++ decl :: rest) line d hx
        (List.mem_append_right _ (List.mem_cons_of_mem _ hl)) hd he
    | false =>
      have := parseLines_skip T leases [x] (pre ++ decl :: rest) (by simpa using hx)
      rw [List.cons_append, List.nil_append] at this
      rw [List.cons_append, this]
      exact ih

theorem mem_lineStamps_starts {line d : Bytes} (hc : Contains line mStarts = true)
    (hs : slice line 11 ((line.length : Int) - 1) = .ok d) : d ∈ lineStamps line := by
  obtain ⟨_, rfl⟩ := slice_ok 11 1 hs
  simp [lineStamps, hc]

theorem mem_lineStamps_ends {line d : Bytes} (hc : Contains line mEnds = true)
    (hs : slice line 9 ((line.length : Int) - 1) = .ok d) : d ∈ lineStamps line := by
  obtain ⟨_, rfl⟩ := slice_ok 9 1 hs
  simp [lineStamps, hc]

/-- C9: for a block with a line that contains "lease" and, after it, a line
that contains "starts" or "ends" whose timestamp slice (L[11:len-1] for
starts, L[9:len-1] for ends) the time library rejects, Parse commits no record
and leaves the store as it was, whatever the other lines of the block
are. -/
theorem C9_bad_timestamp_rejects_entry {τ ε : Type} (T : TimeLib τ ε) (leases : Store τ ε)
    (text : Bytes) (pre : List Bytes) (decl : Bytes) (rest : List Bytes) (line d : Bytes)
    (hlines : lines text = pre ++ decl :: rest)
    (hdecl : Contains decl mLease = true)
    (hl : line ∈ rest)
    (hbad : (Contains line mStarts = true ∧
              slice line 11 ((line.length : Int) - 1) = .ok d) ∨
            (Contains line mEnds = true ∧
              slice line 9 ((line.length : Int) - 1) = .ok d))
    (herr : (LeaseTime T d).2 ≠ none) :
    (parseEntry T leases text).leases = leases := by
  rw [parseEntry_eq, hlines]
  rcases hbad with ⟨hc, hs⟩ | ⟨hc, hs⟩
  · exact parseLines_rejects T leases pre decl rest line d hdecl hl
      (mem_lineStamps_starts hc hs) herr
  · exact parseLines_rejects T leases pre decl rest line d hdecl hl
      (mem_lineStamps_ends hc hs) herr

/-- Witness of C9: the entry `neverEntry`, whose line "  ends never;" is
followed by a mac line and a valid "ends" line, parsed into a store with one
record. -/
theorem C9_bad_timestamp_rejects_entry_witness :
    lines neverEntry = [] ++ lit "lease 10.0.0.8 \x7b" :: neverFields ∧
    slice (lit "  ends never;") 9 (((lit "  ends never;").length : Int) - 1)
      = .ok (lit "ver") ∧
    (LeaseTime sampleTime (lit "ver")).2 ≠ none ∧
    (parseEntry sampleTime oneStore neverEntry).leases = oneStore :=
  ⟨by decide, by decide, by decide,
   C9_bad_timestamp_rejects_entry sampleTime oneStore neverEntry []
     (lit "lease 10.0.0.8 \x7b") neverFields (lit "  ends never;") (lit "ver")
     (by decide) (by decide) (by decide) (Or.inr ⟨by decide, by decide⟩) (by decide)⟩

/-! ## The entry loop of Parse -/

theorem parseEntries_append {τ ε : Type} (T : TimeLib τ ε) (leases leases1 : Store τ ε)
    (before after : List Bytes) (h : parseEntries T leases before = ⟨leases1, none⟩) :
    parseEntries T leases (before ++ after) = parseEntries T leases1 after := by
  induction before generalizing leases with
  | nil =>
    simp only [parseEntries, Outcome.mk.injEq, and_true] at h
    rw [List.nil_append, h]
  | cons b bs ih =>
    rw [List.cons_append]
    rw [parseEntries] at h ⊢
    cases hb : parseEntry T leases b with
    | mk l2 p =>
      cases p with
      | none =>
        rw [hb] at h
        exact ih l2 h
      | some q =>
        rw [hb] at h
        simp at h

theorem parseLines_bad_entry {τ ε : Type} (T : TimeLib τ ε) (leases : Store τ ε)
    (pre : List Bytes) (decl : Bytes) (rest : List Bytes) (line d a : Bytes)
    (hpre : ∀ x ∈ pre, Contains x mLease = false)
    (hdecl : Contains decl mLease = true) (hf : (Fields decl)[1]? = some a)
    (hsafe : ∀ x ∈ rest, lineSafe x) (hl : line ∈ rest) (hd : d ∈ lineStamps line)
    (he : (LeaseTime T d).2 ≠ none) :
    parseLines T leases (pre ++ decl :: rest) = ⟨leases, none⟩ := by
  rw [parseLines_skip T leases pre _ hpre, parseLines_decl T leases decl rest hdecl, hf]
  simp only [if_pos hsafe]
  rw [commit_errors _ _ (fieldsOf_e_ne_nil T _ rest line d hl hd he)]

/-- Counterexample to C10: the line "ends;" contains "ends" and setEnds
panics on it (slice bounds out of range); Parse of a stream whose first entry
has this line ends with that panic and never reaches the second entry, which
on its own commits a record. -/
theorem C10_counterexample :
    Contains (lit "ends;") mEnds = true ∧
    (Lease.new sampleTime).setEnds sampleTime (lit "ends;") = .error .sliceBounds ∧
    (NewScanner [shortStream]).all ScanLeases
      = [lit "lease 10.0.0.5 \x7b\nends;\n", secondEntry] ∧
    Parse sampleTime (NewLeases [shortStream]) = ⟨[], some .sliceBounds⟩ ∧
    parseEntry sampleTime [] secondEntry
      = ⟨[(lit "10.0.0.6", (Lease.new sampleTime).setAddress (lit "10.0.0.6"))], none⟩ := by
  decide

/-- C10, amended: on a line whose timestamp slice is in range (L[11:len-1]
for starts, L[9:len-1] for ends) and is rejected by the time library,
setStarts and setEnds return normally and append the error to the errors of
the record; and when the entry loop of Parse reaches an entry with such a
line after a line that contains "lease" and has two fields, all of whose
field lines are long enough for their slices, the entry ends without a panic,
the store is as before it, and Parse goes on with the entries that
follow. -/
theorem C10_bad_timestamp_does_not_abort {τ ε : Type} (T : TimeLib τ ε) :
    (∀ (l : Lease τ ε) (line d : Bytes) (err : ε),
      slice line 11 ((line.length : Int) - 1) = .ok d → (LeaseTime T d).2 = some err →
      l.setStarts T line = .ok { l with e := l.e ++ [err], starts := (LeaseTime T d).1 }) ∧
    (∀ (l : Lease τ ε) (line d : Bytes) (err : ε),
      slice line 9 ((line.length : Int) - 1) = .ok d → (LeaseTime T d).2 = some err →
      l.setEnds T line = .ok { l with e := l.e ++ [err], ends := (LeaseTime T d).1 }) ∧
    (∀ (leases leases1 : Store τ ε) (chunks before : List Bytes) (entry : Bytes)
       (after pre : List Bytes) (decl : Bytes) (rest : List Bytes) (line d a : Bytes),
      (NewScanner chunks).all ScanLeases = before ++ entry :: after →
      parseEntries T leases before = ⟨leases1, none⟩ →
      lines entry = pre ++ decl :: rest →
      (∀ x ∈ pre, Contains x mLease = false) →
      Contains decl mLease = true →
      (Fields decl)[1]? = some a →
      (∀ x ∈ rest, lineSafe x) →
      line ∈ rest →
      ((Contains line mStarts = true ∧
          slice line 11 ((line.length : Int) - 1) = .ok d) ∨
        (Contains line mEnds = true ∧
          slice line 9 ((line.length : Int) - 1) = .ok d)) →
      (LeaseTime T d).2 ≠ none →
      parseEntry T leases1 entry = ⟨leases1, none⟩ ∧
      Parse T { scanner := NewScanner chunks, leases := leases }
        = parseEntries T leases1 after) := by
  refine ⟨?_, ?_, ?_⟩
  · intro l line d err hs he
    unfold Lease.setStarts
    rw [hs]
    simp [he, appendErr]
  · intro l line d err hs he
    unfold Lease.setEnds
    rw [hs]
    simp [he, appendErr]
  · intro leases leases1 chunks before entry after pre decl rest line d a hall hbefore
      hlines hpre hdecl hf hsafe hl hbad herr
    have hd : d ∈ lineStamps line := by
      rcases hbad with ⟨hc, hs⟩ | ⟨hc, hs⟩
      · exact mem_lineStamps_starts hc hs
      · exact mem_lineStamps_ends hc hs
    have hentry : parseEntry T leases1 entry = ⟨leases1, none⟩ := by
      rw [parseEntry_eq, hlines]
      exact parseLines_bad_entry T leases1 pre decl rest line d a hpre hdecl hf hsafe hl hd
        herr
    refine ⟨hentry, ?_⟩
    simp only [Parse, hall]
    rw [parseEntries_append T leases leases1 before _ hbefore, parseEntries, hentry]

/-- Witness of C10: the lines "  starts 2 soon;" and "  ends never;", and
the stream `neverStream`, whose first entry is rejected and whose second
entry is parsed. -/
theorem C10_bad_timestamp_does_not_abort_witness :
    (Lease.new sampleTime).setStarts sampleTime (lit "  starts 2 soon;")
      = .ok { Lease.new sampleTime with e := [()], starts := [] } ∧
    (Lease.new sampleTime).setEnds sampleTime (lit "  ends never;")
      = .ok { Lease.new sampleTime with e := [()], ends := [] } ∧
    parseEntry sampleTime [] neverEntry = ⟨[], none⟩ ∧
    Parse sampleTime { scanner := NewScanner [neverStream], leases := [] }
      = parseEntries sampleTime [] [secondEntry] :=
  ⟨(C10_bad_timestamp_does_not_abort sampleTime).1 (Lease.new sampleTime)
      (lit "  starts 2 soon;") (lit "soon") () (by decide) (by decide),
   (C10_bad_timestamp_does_not_abort sampleTime).2.1 (Lease.new sampleTime)
      (lit "  ends never;") (lit "ver") () (by decide) (by decide),
   (C10_bad_timestamp_does_not_abort sampleTime).2.2 [] [] [neverStream] [] neverEntry
      [secondEntry] [] (lit "lease 10.0.0.8 \x7b") neverFields (lit "  ends never;")
      (lit "ver") (lit "10.0.0.8") (by decide) (by decide) (by decide) (by decide)
      (by decide) (by decide) (by decide) (by decide) (Or.inr ⟨by decide, by decide⟩)
      (by decide)⟩

/-! ## Declaration lines without an address -/

theorem parseLines_no_address {τ ε : Type} (T : TimeLib τ ε) (leases : Store τ ε)
    (pre : List Bytes) (decl : Bytes) (rest : List Bytes)
    (hpre : ∀ x ∈ pre, Contains x mLease = false)
    (hdecl : Contains decl mLease = true) (hf : (Fields decl).length < 2) :
    parseLines T leases (pre ++ decl :: rest) = ⟨leases, some .indexOutOfRange⟩ := by
  have h1 : (Fields decl)[1]? = none := List.getElem?_eq_none (by omega)
  rw [parseLines_skip T leases pre _ hpre, parseLines_decl T leases decl rest hdecl, h1]

/-- Counterexample to C11: the declaration lines "lease" and "lease{" have one
field; Parse of a block with such a line does not end normally but panics
(index out of range), and Parse of a stream whose first entry has the line
"lease" never reaches the second entry. -/
theorem C11_counterexample :
    Fields (lit "lease") = [lit "lease"] ∧
    Fields (lit "lease\x7b") = [lit "lease\x7b"] ∧
    parseEntry sampleTime oneStore (lit "lease\n") = ⟨oneStore, some .indexOutOfRange⟩ ∧
    parseEntry sampleTime oneStore (lit "lease\x7b\n") = ⟨oneStore, some .indexOutOfRange⟩ ∧
    (NewScanner [bareStream]).all ScanLeases = [lit "lease\n", secondEntry] ∧
    Parse sampleTime (NewLeases [bareStream]) = ⟨[], some .indexOutOfRange⟩ := by
  decide

/-- C11, amended: for a block whose first line that contains "lease" has fewer
than two fields, Parse commits no record and the store stays as it was; the
block does not end normally: the index expression for the second field
panics (index out of range). -/
theorem C11_missing_address_panics {τ ε : Type} (T : TimeLib τ ε) (leases : Store τ ε)
    (text : Bytes) (pre : List Bytes) (decl : Bytes) (rest : List Bytes)
    (hlines : lines text = pre ++ decl :: rest)
    (hpre : ∀ x ∈ pre, Contains x mLease = false)
    (hdecl : Contains decl mLease = true) (hf : (Fields decl).length < 2) :
    parseEntry T leases text = ⟨leases, some .indexOutOfRange⟩ := by
  rw [parseEntry_eq, hlines]
  exact parseLines_no_address T leases pre decl rest hpre hdecl hf

/-- Witness of C11, amended: the block "lease" parsed into a store with one
record. -/
theorem C11_missing_address_panics_witness :
    parseEntry sampleTime oneStore (lit "lease\n") = ⟨oneStore, some .indexOutOfRange⟩ :=
  C11_missing_address_panics sampleTime oneStore (lit "lease\n") [] (lit "lease") []
    (by decide) (by decide) (by decide) (by decide)

/-! ## AddLease and Leases -/

theorem get_assign_ne {τ ε : Type} (m : Store τ ε) (k k1 : Bytes) (v : Lease τ ε)
    (h : k1 ≠ k) : (m.assign k v).get k1 = m.get k1 := by
  induction m with
  | nil => simp [Store.assign, Store.get, Ne.symm h]
  | cons p rest ih =>
    obtain ⟨k2, v2⟩ := p
    by_cases h2 : k2 = k
    · subst h2
      simp [Store.assign, Store.get, Ne.symm h]
    · by_cases h3 : k2 = k1
      · subst h3
        simp [Store.assign, Store.get, h2]
      · simp [Store.assign, Store.get, h2, h3, ih]

/-- C13: after AddLease(r) the map returned by Leases() holds r under
r.Address() and, under every other key, what it held before: a key is present
exactly when it was, and none is removed. -/
theorem C13_AddLease_frame {τ ε : Type} (lf : LeaseFile τ ε) (r : Lease τ ε) :
    (LeaseFile.Leases { lf with leases := AddLease lf.leases r }).get r.Address = some r ∧
    ∀ k : Bytes, k ≠ r.Address →
      (LeaseFile.Leases { lf with leases := AddLease lf.leases r }).get k
        = lf.Leases.get k := by
  refine ⟨?_, fun k hk => ?_⟩
  · exact get_assign_self _ _ _
  · exact get_assign_ne _ _ _ _ hk

/-- Witness of C13: a record for "10.0.0.6" added to a store that holds
"10.0.0.5". -/
theorem C13_AddLease_frame_witness :
    lit "10.0.0.5" ≠ ((Lease.new sampleTime).setAddress (lit "10.0.0.6")).Address ∧
    (LeaseFile.Leases
      { scanner := NewScanner [],
        leases := AddLease oneStore ((Lease.new sampleTime).setAddress (lit "10.0.0.6")) }).get
      (lit "10.0.0.5") = oneStore.get (lit "10.0.0.5") :=
  ⟨by decide,
   (C13_AddLease_frame { scanner := NewScanner [], leases := oneStore }
     ((Lease.new sampleTime).setAddress (lit "10.0.0.6"))).2 (lit "10.0.0.5") (by decide)⟩

/-! ## What Parse leaves in the store -/

theorem commit_cases_valid {τ ε : Type} (leases : Store τ ε) (l : Lease τ ε) :
    commit leases l = leases ∨
    (l.e = [] ∧ l.address ≠ [] ∧ commit leases l = leases.assign l.address l) := by
  by_cases he : l.e = []
  · by_cases ha : l.address = []
    · left
      simp [commit, Lease.Error, Lease.Address, he, ha]
    · exact Or.inr ⟨he, ha, commit_valid leases l he ha⟩
  · exact Or.inl (commit_errors leases l he)

/-- One entry leaves the store as it was or assigns one record without
errors under its own address, which is not empty. -/
theorem parseLines_leases_cases {τ ε : Type} (T : TimeLib τ ε) (leases : Store τ ε)
    (ls : List Bytes) :
    (parseLines T leases ls).leases = leases ∨
    ∃ l : Lease τ ε, l.e = [] ∧ l.address ≠ [] ∧
      (parseLines T leases ls).leases = leases.assign l.address l := by
  rcases exists_first_lease ls with h | ⟨pre, decl, rest, h1, h2, h3⟩
  · left
    rw [parseLines_no_lease T leases ls h]
  · rw [h1, parseLines_skip T leases pre _ h2, parseLines_decl T leases decl rest h3]
    cases (Fields decl)[1]? with
    | none => exact Or.inl rfl
    | some a =>
      by_cases hs : ∀ line ∈ rest, lineSafe line
      · simp only [if_pos hs]
        rcases commit_cases_valid leases (fieldsOf T ((Lease.new T).setAddress a) rest)
          with hc | ⟨he, ha, hc⟩
        · exact Or.inl hc
        · exact Or.inr ⟨_, he, ha, hc⟩
      · left
        simp only [if_neg hs]

theorem mem_assign {τ ε : Type} (m : Store τ ε) (k : Bytes) (v : Lease τ ε)
    (p : Bytes × Lease τ ε) (h : p ∈ m.assign k v) : p = (k, v) ∨ p ∈ m := by
  induction m with
  | nil =>
    simp only [Store.assign, List.mem_singleton] at h
    exact Or.inl h
  | cons q rest ih =>
    obtain ⟨k1, v1⟩ := q
    by_cases h1 : k1 = k
    · simp only [Store.assign, h1, if_true, List.mem_cons] at h
      rcases h with h | h
      · exact Or.inl h
      · exact Or.inr (List.mem_cons_of_mem _ h)
    · simp only [Store.assign, h1, if_false, List.mem_cons] at h
      rcases h with h | h
      · exact Or.inr (by rw [h]; exact List.mem_cons_self _ _)
      · rcases ih h with h | h
        · exact Or.inl h
        · exact Or.inr (List.mem_cons_of_mem _ h)

theorem parseEntries_induction {τ ε : Type} (T : TimeLib τ ε) (P : Store τ ε → Prop)
    (hstep : ∀ (st : Store τ ε) (e : Bytes), P st → P (parseEntry T st e).leases)
    (es : List Bytes) (st : Store τ ε) (h : P st) : P (parseEntries T st es).leases := by
  induction es generalizing st with
  | nil => exact h
  | cons e es ih =>
    rw [parseEntries]
    have hs := hstep st e h
    cases hb : parseEntry T st e with
    | mk l2 p =>
      rw [hb] at hs
      cases p with
      | none => exact ih l2 hs
      | some q => exact hs

/-- C14: in the store of a parse pass that starts from the empty store of
NewLeases, every entry (k, r) has k = r.Address(), a key that is not empty and
a record without parse errors; this holds for the store of every run, the
runs that end normally included. -/
theorem C14_store_invariant {τ ε : Type} (T : TimeLib τ ε) (chunks : List Bytes)
    (k : Bytes) (r : Lease τ ε) (h : (k, r) ∈ (Parse T (NewLeases chunks)).leases) :
    k = r.Address ∧ k ≠ [] ∧ r.Error = [] := by
  have hinv : ∀ p ∈ (Parse T (NewLeases chunks)).leases,
      p.1 = p.2.address ∧ p.1 ≠ [] ∧ p.2.e = [] := by
    unfold Parse
    apply parseEntries_induction T
      (fun st => ∀ p ∈ st, p.1 = p.2.address ∧ p.1 ≠ [] ∧ p.2.e = [])
    · intro st e hst
      rw [parseEntry_eq]
      rcases parseLines_leases_cases T st (lines e) with hc | ⟨l, he, ha, hc⟩
      · rw [hc]
        exact hst
      · rw [hc]
        intro p hp
        rcases mem_assign st _ _ p hp with hp | hp
        · rw [hp]
          exact ⟨rfl, ha, he⟩
        · exact hst p hp
    · intro p hp
      simp [NewLeases] at hp
  exact hinv (k, r) h

/-- Witness of C14: the record of the example stream. -/
theorem C14_store_invariant_witness :
    (lit "10.0.0.5", (oneStore.get (lit "10.0.0.5")).getD (Lease.new sampleTime))
      ∈ (Parse sampleTime (NewLeases [exampleStream])).leases ∧
    lit "10.0.0.5"
      = ((oneStore.get (lit "10.0.0.5")).getD (Lease.new sampleTime)).Address ∧
    lit "10.0.0.5" ≠ [] ∧
    ((oneStore.get (lit "10.0.0.5")).getD (Lease.new sampleTime)).Error = [] :=
  ⟨by decide,
   C14_store_invariant sampleTime [exampleStream] (lit "10.0.0.5")
     ((oneStore.get (lit "10.0.0.5")).getD (Lease.new sampleTime)) (by decide)⟩

/-! ## Two entries for one address -/

theorem keys_assign {τ ε : Type} (m : Store τ ε) (k : Bytes) (v : Lease τ ε) :
    (m.assign k v).map Prod.fst
      = if k ∈ m.map Prod.fst then m.map Prod.fst else m.map Prod.fst ++ [k] := by
  induction m with
  | nil => simp [Store.assign]
  | cons p rest ih =>
    obtain ⟨k1, v1⟩ := p
    by_cases h1 : k1 = k
    · simp [Store.assign, h1]
    · have h2 : ¬ k = k1 := fun e => h1 e.symm
      simp only [Store.assign, h1, if_false, List.map_cons, ih, List.mem_cons, h2, false_or]
      split_ifs <;> simp

theorem nodup_assign {τ ε : Type} (m : Store τ ε) (k : Bytes) (v : Lease τ ε)
    (h : (m.map Prod.fst).Nodup) : ((m.assign k v).map Prod.fst).Nodup := by
  rw [keys_assign]
  split_ifs with hk
  · exact h
  · exact List.Nodup.append h (List.nodup_singleton k) (by simpa using hk)

theorem filter_of_get {τ ε : Type} (m : Store τ ε) (k : Bytes) (v : Lease τ ε)
    (hn : (m.map Prod.fst).Nodup) (hg : m.get k = some v) :
    m.filter (fun p => decide (p.1 = k)) = [(k, v)] := by
  induction m with
  | nil => simp [Store.get] at hg
  | cons p rest ih =>
    obtain ⟨k1, v1⟩ := p
    simp only [List.map_cons, List.nodup_cons] at hn
    by_cases h1 : k1 = k
    · subst h1
      simp only [Store.get, if_true, Option.some.injEq] at hg
      subst hg
      have : rest.filter (fun p => decide (p.1 = k1)) = [] := by
        rw [List.filter_eq_nil_iff]
        intro p hp hpk
        simp only [decide_eq_true_eq] at hpk
        exact hn.1 (List.mem_map.mpr ⟨p, hp, hpk⟩)
      simp [List.filter_cons, this]
    · simp only [Store.get, h1, if_false] at hg
      simp [List.filter_cons, h1, ih hn.2 hg]

theorem parseEntries_nodup {τ ε : Type} (T : TimeLib τ ε) (es : List Bytes)
    (st : Store τ ε) (h : (st.map Prod.fst).Nodup) :
    ((parseEntries T st es).leases.map Prod.fst).Nodup := by
  apply parseEntries_induction T (fun st => (st.map Prod.fst).Nodup) _ es st h
  intro st e hst
  rw [parseEntry_eq]
  rcases parseLines_leases_cases T st (lines e) with hc | ⟨l, _, _, hc⟩
  · rw [hc]
    exact hst
  · rw [hc]
    exact nodup_assign st _ _ hst

theorem parseEntries_keeps {τ ε : Type} (T : TimeLib τ ε) (a : Bytes) (es : List Bytes)
    (h : ∀ e ∈ es, ∀ st : Store τ ε, (parseEntry T st e).leases.get a = st.get a)
    (st : Store τ ε) : (parseEntries T st es).leases.get a = st.get a := by
  induction es generalizing st with
  | nil => rfl
  | cons e es ih =>
    rw [parseEntries]
    have he := h e (List.mem_cons_self _ _) st
    have hes := ih (fun x hx => h x (List.mem_cons_of_mem _ hx))
    cases hb : parseEntry T st e with
    | mk l2 p =>
      rw [hb] at he
      cases p with
      | none =>
        simp only
        rw [hes l2]
        exact he
      | some q => exact he

/-- A valid entry assigns, under its address, the record that `fieldsOf`
builds from a new lease and the field lines of the entry. -/
theorem parseEntry_valid {τ ε : Type} (T : TimeLib τ ε) (leases : Store τ ε)
    (text a : Bytes) (rest : List Bytes) (he : EntryOf text a rest) (hc : Clean T rest) :
    parseEntry T leases text
      = ⟨leases.assign a (fieldsOf T ((Lease.new T).setAddress a) rest), none⟩ := by
  obtain ⟨pre, decl, hl, hpre, hdecl, hf⟩ := he
  have ha : a ≠ [] := Fields_ne_nil decl a (List.getElem?_mem hf)
  have hnil : (rest.flatMap lineStamps).filterMap (fun d => (LeaseTime T d).2) = [] := by
    rw [List.filterMap_eq_nil_iff]
    exact hc.2
  have hE : (fieldsOf T ((Lease.new T).setAddress a) rest).e = [] := by
    simp [fieldsOf, hnil, Lease.new, Lease.setAddress]
  rw [parseEntry_eq, hl, parseLines_skip T leases pre _ hpre,
    parseLines_decl T leases decl rest hdecl, hf]
  simp only [if_pos hc.1]
  rw [commit_valid _ _ hE (by simpa [fieldsOf, Lease.new, Lease.setAddress] using ha)]
  rfl

/-- C12: when a stream holds a valid entry for an address after any earlier
entries (among them another valid entry for the same address) and no entry
after it changes what the store holds for that address, the store after Parse
holds exactly one record for the address, and that record is built from a new
lease and the lines of the later entry alone: a field the later entry does
not mention is empty, whatever the earlier entry gave it. -/
theorem C12_later_entry_replaces_earlier {τ ε : Type} (T : TimeLib τ ε)
    (chunks before after : List Bytes) (entry a : Bytes) (rest : List Bytes)
    (st1 : Store τ ε)
    (hall : (NewScanner chunks).all ScanLeases = before ++ entry :: after)
    (hbefore : parseEntries T [] before = ⟨st1, none⟩)
    (hentry : EntryOf entry a rest) (hclean : Clean T rest)
    (hafter : ∀ e ∈ after, ∀ st : Store τ ε, (parseEntry T st e).leases.get a = st.get a) :
    (Parse T (NewLeases chunks)).leases.get a
      = some (fieldsOf T ((Lease.new T).setAddress a) rest) ∧
    (Parse T (NewLeases chunks)).leases.filter (fun p => decide (p.1 = a))
      = [(a, fieldsOf T ((Lease.new T).setAddress a) rest)] ∧
    (lastWith mHardware rest = none →
      (fieldsOf T ((Lease.new T).setAddress a) rest).mac = []) ∧
    (lastWith mCircuitId rest = none →
      (fieldsOf T ((Lease.new T).setAddress a) rest).circuitId = []) ∧
    (lastWith mBinding rest = none →
      (fieldsOf T ((Lease.new T).setAddress a) rest).binding = []) ∧
    (lastWith mStarts rest = none →
      (fieldsOf T ((Lease.new T).setAddress a) rest).starts = T.zero) ∧
    (lastWith mEnds rest = none →
      (fieldsOf T ((Lease.new T).setAddress a) rest).ends = T.zero) := by
  have hget : (Parse T (NewLeases chunks)).leases.get a
      = some (fieldsOf T ((Lease.new T).setAddress a) rest) := by
    simp only [Parse, NewLeases, hall]
    rw [parseEntries_append T [] st1 before _ hbefore, parseEntries,
      parseEntry_valid T st1 entry a rest hentry hclean]
    simp only
    rw [parseEntries_keeps T a after hafter]
    exact get_assign_self _ _ _
  have hnodup : ((Parse T (NewLeases chunks)).leases.map Prod.fst).Nodup :=
    parseEntries_nodup T _ _ (by simp [NewLeases])
  refine ⟨hget, filter_of_get _ a _ hnodup hget, ?_, ?_, ?_, ?_, ?_⟩ <;>
    intro h <;> simp [fieldsOf, h, Lease.new, Lease.setAddress]

/-- The entry for "10.0.0.6" does not change what a store holds for
"10.0.0.5". -/
theorem secondEntry_keeps (st : Store Bytes Unit) :
    (parseEntry sampleTime st secondEntry).leases.get (lit "10.0.0.5")
      = st.get (lit "10.0.0.5") := by
  rw [parseEntry_valid sampleTime st secondEntry (lit "10.0.0.6") []
    ⟨[], lit "lease 10.0.0.6 \x7b", by decide, by decide, by decide, by decide⟩
    ⟨by decide, by decide⟩]
  exact get_assign_ne _ _ _ _ (by decide)

/-- Witness of C12: the stream `renewalStream`; the earlier entry for
"10.0.0.5" has a hardware line and the later one has none, and the record in
the store has an empty mac. -/
theorem C12_later_entry_replaces_earlier_witness :
    (Parse sampleTime (NewLeases [renewalStream])).leases.get (lit "10.0.0.5")
      = some { address := lit "10.0.0.5", starts := [], ends := lit "2023/01/11 20:00:00",
               binding := lit "free", mac := [], circuitId := [], e := [] } ∧
    (Parse sampleTime (NewLeases [renewalStream])).leases.filter
        (fun p => decide (p.1 = lit "10.0.0.5"))
      = [(lit "10.0.0.5",
          { address := lit "10.0.0.5", starts := [], ends := lit "2023/01/11 20:00:00",
            binding := lit "free", mac := [], circuitId := [], e := [] })] :=
  (fun h => ⟨h.1, h.2.1⟩)
    (C12_later_entry_replaces_earlier sampleTime [renewalStream] [renewalFirst]
      [secondEntry] renewalSecond (lit "10.0.0.5") renewalSecondFields
      [(lit "10.0.0.5",
        { address := lit "10.0.0.5", starts := lit "2023/01/10 08:00:00", ends := [],
          binding := lit "active", mac := lit "aa:bb:cc:dd:ee:ff", circuitId := [],
          e := [] })]
      (by decide) (by decide)
      ⟨[], lit "lease 10.0.0.5 \x7b", by decide, by decide, by decide, by decide⟩
      ⟨by decide, by decide⟩
      (fun e he st => by
        rw [List.mem_singleton] at he
        rw [he]
        exact secondEntry_keeps st))

/-! ## A renewal that is rejected -/

/-- C20: when a stream holds a valid entry for an address A and, later, an
entry (for A or for any address) with a line after its "lease" line whose
starts or ends timestamp the time library rejects, and the other entries
after the valid one do not change what the store holds for A, the store after
Parse holds for A the record of the valid entry; the rejected entry leaves
every store exactly as it was. -/
theorem C20_rejected_renewal_keeps_record {τ ε : Type} (T : TimeLib τ ε)
    (chunks before mid after : List Bytes) (first a : Bytes) (rest1 : List Bytes)
    (second : Bytes) (pre2 : List Bytes) (decl2 : Bytes) (rest2 : List Bytes)
    (line d : Bytes) (st0 : Store τ ε)
    (hall : (NewScanner chunks).all ScanLeases
      = before ++ first :: (mid ++ second :: after))
    (hbefore : parseEntries T [] before = ⟨st0, none⟩)
    (hfirst : EntryOf first a rest1) (hclean : Clean T rest1)
    (hmid : ∀ e ∈ mid, ∀ st : Store τ ε, (parseEntry T st e).leases.get a = st.get a)
    (hlines : lines second = pre2 ++ decl2 :: rest2)
    (hdecl : Contains decl2 mLease = true)
    (hl : line ∈ rest2)
    (hbad : (Contains line mStarts = true ∧
              slice line 11 ((line.length : Int) - 1) = .ok d) ∨
            (Contains line mEnds = true ∧
              slice line 9 ((line.length : Int) - 1) = .ok d))
    (herr : (LeaseTime T d).2 ≠ none)
    (hafter : ∀ e ∈ after, ∀ st : Store τ ε, (parseEntry T st e).leases.get a = st.get a) :
    (Parse T (NewLeases chunks)).leases.get a
      = some (fieldsOf T ((Lease.new T).setAddress a) rest1) ∧
    ∀ st : Store τ ε, (parseEntry T st second).leases = st := by
  have hd : d ∈ lineStamps line := by
    rcases hbad with ⟨hc, hs⟩ | ⟨hc, hs⟩
    · exact mem_lineStamps_starts hc hs
    · exact mem_lineStamps_ends hc hs
  have hsecond : ∀ st : Store τ ε, (parseEntry T st second).leases = st := by
    intro st
    rw [parseEntry_eq, hlines]
    exact parseLines_rejects T st pre2 decl2 rest2 line d hdecl hl hd herr
  refine ⟨?_, hsecond⟩
  have hlater : ∀ e ∈ mid ++ second :: after, ∀ st : Store τ ε,
      (parseEntry T st e).leases.get a = st.get a := by
    intro e he st
    rcases List.mem_append.mp he with h | h
    · exact hmid e h st
    · rcases List.mem_cons.mp h with h | h
      · rw [h, hsecond st]
      · exact hafter e h st
  simp only [Parse, NewLeases, hall]
  rw [parseEntries_append T [] st0 before _ hbefore, parseEntries,
    parseEntry_valid T st0 first a rest1 hfirst hclean]
  simp only
  rw [parseEntries_keeps T a _ hlater]
  exact get_assign_self _ _ _

/-- Witness of C20: the stream `rejectedStream`, whose second entry for
"10.0.0.5" has the line "  ends never;". -/
theorem C20_rejected_renewal_keeps_record_witness :
    (Parse sampleTime (NewLeases [rejectedStream])).leases.get (lit "10.0.0.5")
      = some { address := lit "10.0.0.5", starts := lit "2023/01/10 08:00:00", ends := [],
               binding := lit "active", mac := lit "aa:bb:cc:dd:ee:ff", circuitId := [],
               e := [] } ∧
    (parseEntry sampleTime oneStore rejectedSecond).leases = oneStore :=
  (fun h => ⟨h.1, h.2 oneStore⟩)
    (C20_rejected_renewal_keeps_record sampleTime [rejectedStream] [] [] [secondEntry]
      renewalFirst (lit "10.0.0.5") renewalFirstFields rejectedSecond []
      (lit "lease 10.0.0.5 \x7b") [lit "  ends never;", lit "  binding state free;"]
      (lit "  ends never;") (lit "ver") []
      (by decide) (by decide)
      ⟨[], lit "lease 10.0.0.5 \x7b", by decide, by decide, by decide, by decide⟩
      ⟨by decide, by decide⟩
      (fun e he => absurd he (List.not_mem_nil e))
      (by decide) (by decide) (by decide) (Or.inr ⟨by decide, by decide⟩) (by decide)
      (fun e he st => by
        rw [List.mem_singleton] at he
        rw [he]
        exact secondEntry_keeps st))

/-! ## Several lines for one marker -/

theorem lastWith_split (marker : Bytes) (before : List Bytes) (L : Bytes)
    (after : List Bytes) (hL : Contains L marker = true)
    (hafter : ∀ x ∈ after, Contains x marker = false) :
    lastWith marker (before ++ L :: after) = some L := by
  have h : after.filter (fun line => Contains line marker) = [] := by
    rw [List.filter_eq_nil_iff]
    intro x hx
    simp [hafter x hx]
  unfold lastWith
  rw [List.filter_append, List.filter_cons, if_pos hL, h]
  exact List.getLast?_concat _

theorem safe_of_mem {rest : List Bytes} (hs : ∀ line ∈ rest, lineSafe line)
    (before : List Bytes) (L : Bytes) (after : List Bytes)
    (h : rest = before ++ L :: after) : lineSafe L :=
  hs L (by rw [h]; simp)

/-- C15: in a valid entry (a "lease" line with two fields, field lines long
enough for their slices, timestamps accepted) Parse commits one record, and
for each of the five markers the field of the record is the value sliced from
the last line after the declaration that contains the marker. -/
theorem C15_last_occurrence_wins {τ ε : Type} (T : TimeLib τ ε) (leases : Store τ ε)
    (text a : Bytes) (rest : List Bytes) (hentry : EntryOf text a rest)
    (hclean : Clean T rest) :
    parseEntry T leases text
      = ⟨leases.assign a (fieldsOf T ((Lease.new T).setAddress a) rest), none⟩ ∧
    (∀ (before : List Bytes) (L : Bytes) (after : List Bytes),
      rest = before ++ L :: after → Contains L mHardware = true →
      (∀ x ∈ after, Contains x mHardware = false) →
      slice L 20 ((L.length : Int) - 1)
        = .ok (fieldsOf T ((Lease.new T).setAddress a) rest).mac) ∧
    (∀ (before : List Bytes) (L : Bytes) (after : List Bytes),
      rest = before ++ L :: after → Contains L mCircuitId = true →
      (∀ x ∈ after, Contains x mCircuitId = false) →
      slice L 27 ((L.length : Int) - 2)
        = .ok (fieldsOf T ((Lease.new T).setAddress a) rest).circuitId) ∧
    (∀ (before : List Bytes) (L : Bytes) (after : List Bytes),
      rest = before ++ L :: after → Contains L mBinding = true →
      (∀ x ∈ after, Contains x mBinding = false) →
      slice L 16 ((L.length : Int) - 1)
        = .ok (fieldsOf T ((Lease.new T).setAddress a) rest).binding) ∧
    (∀ (before : List Bytes) (L : Bytes) (after : List Bytes),
      rest = before ++ L :: after → Contains L mStarts = true →
      (∀ x ∈ after, Contains x mStarts = false) →
      ∃ d, slice L 11 ((L.length : Int) - 1) = .ok d ∧
        (fieldsOf T ((Lease.new T).setAddress a) rest).starts = (LeaseTime T d).1) ∧
    (∀ (before : List Bytes) (L : Bytes) (after : List Bytes),
      rest = before ++ L :: after → Contains L mEnds = true →
      (∀ x ∈ after, Contains x mEnds = false) →
      ∃ d, slice L 9 ((L.length : Int) - 1) = .ok d ∧
        (fieldsOf T ((Lease.new T).setAddress a) rest).ends = (LeaseTime T d).1) := by
  refine ⟨parseEntry_valid T leases text a rest hentry hclean, ?_, ?_, ?_, ?_, ?_⟩
  · intro before L after hr hL hafter
    have hsafe := (safe_of_mem hclean.1 before L after hr).2.2.1 hL
    have h := slice_eq L 20 1
    simp only [Nat.cast_ofNat, Nat.cast_one] at h
    rw [h, if_pos (by omega)]
    simp [fieldsOf, hr, lastWith_split mHardware before L after hL hafter]
  · intro before L after hr hL hafter
    have hsafe := (safe_of_mem hclean.1 before L after hr).2.2.2.1 hL
    have h := slice_eq L 27 2
    simp only [Nat.cast_ofNat] at h
    rw [h, if_pos (by omega)]
    simp [fieldsOf, hr, lastWith_split mCircuitId before L after hL hafter]
  · intro before L after hr hL hafter
    have hsafe := (safe_of_mem hclean.1 before L after hr).2.2.2.2 hL
    have h := slice_eq L 16 1
    simp only [Nat.cast_ofNat, Nat.cast_one] at h
    rw [h, if_pos (by omega)]
    simp [fieldsOf, hr, lastWith_split mBinding before L after hL hafter]
  · intro before L after hr hL hafter
    have hsafe := (safe_of_mem hclean.1 before L after hr).2.1 hL
    have h := slice_eq L 11 1
    simp only [Nat.cast_ofNat, Nat.cast_one] at h
    refine ⟨sl L 11 1, ?_, ?_⟩
    · rw [h, if_pos (by omega)]
    · simp [fieldsOf, hr, lastWith_split mStarts before L after hL hafter]
  · intro before L after hr hL hafter
    have hsafe := (safe_of_mem hclean.1 before L after hr).1 hL
    have h := slice_eq L 9 1
    simp only [Nat.cast_ofNat, Nat.cast_one] at h
    refine ⟨sl L 9 1, ?_, ?_⟩
    · rw [h, if_pos (by omega)]
    · simp [fieldsOf, hr, lastWith_split mEnds before L after hL hafter]

/-- Witness of C15: the entry `dupEntry`; the mac and the binding state of
the record are those of the second hardware line and of the second
binding-state line. -/
theorem C15_last_occurrence_wins_witness :
    parseEntry sampleTime [] dupEntry
      = ⟨[(lit "10.0.0.9",
           { address := lit "10.0.0.9", starts := [], ends := [], binding := lit "free",
             mac := lit "aa:aa:aa:aa:aa:02", circuitId := [], e := [] })], none⟩ ∧
    slice (lit "  hardware ethernet aa:aa:aa:aa:aa:02;") 20
        (((lit "  hardware ethernet aa:aa:aa:aa:aa:02;").length : Int) - 1)
      = .ok (lit "aa:aa:aa:aa:aa:02") :=
  (fun h => ⟨h.1,
      h.2.1 [lit "  hardware ethernet aa:aa:aa:aa:aa:01;", lit "  binding state active;"]
        (lit "  hardware ethernet aa:aa:aa:aa:aa:02;") [lit "  binding state free;"]
        (by decide) (by decide) (by decide)⟩)
    (C15_last_occurrence_wins sampleTime [] dupEntry (lit "10.0.0.9") dupFields
      ⟨[], lit "lease 10.0.0.9 \x7b", by decide, by decide, by decide, by decide⟩
      ⟨by decide, by decide⟩)

/-! ## The order of the field lines -/

theorem eq_of_perm_of_length_le_one {α : Type} {l1 l2 : List α} (h : l1.Perm l2)
    (hlen : l2.length ≤ 1) : l1 = l2 := by
  match l2, hlen, h with
  | [], _, h => exact h.eq_nil
  | [x], _, h => exact List.perm_singleton.mp h

theorem lastWith_perm (marker : Bytes) {rest1 rest2 : List Bytes} (h : rest1.Perm rest2)
    (hone : (rest2.filter (fun line => Contains line marker)).length ≤ 1) :
    lastWith marker rest1 = lastWith marker rest2 := by
  unfold lastWith
  rw [eq_of_perm_of_length_le_one (h.filter _) hone]

/-- C16: for a block and a permutation of the lines after its declaration
line, each of the five markers being contained in at most one of those lines,
Parse of the permuted block has the outcome of Parse of the block: the same
store (the same record under the same key, or the same rejection) and the same
panic, if any. -/
theorem C16_order_of_lines_irrelevant {τ ε : Type} (T : TimeLib τ ε) (leases : Store τ ε)
    (text1 text2 : Bytes) (pre : List Bytes) (decl : Bytes) (rest1 rest2 : List Bytes)
    (h1 : lines text1 = pre ++ decl :: rest1)
    (h2 : lines text2 = pre ++ decl :: rest2)
    (hpre : ∀ x ∈ pre, Contains x mLease = false)
    (hdecl : Contains decl mLease = true)
    (hperm : rest2.Perm rest1)
    (hone : ∀ marker ∈ [mEnds, mStarts, mHardware, mCircuitId, mBinding],
      (rest1.filter (fun line => Contains line marker)).length ≤ 1) :
    parseEntry T leases text2 = parseEntry T leases text1 := by
  rw [parseEntry_eq, parseEntry_eq, h1, h2, parseLines_skip T leases pre _ hpre,
    parseLines_skip T leases pre _ hpre, parseLines_decl T leases decl rest1 hdecl,
    parseLines_decl T leases decl rest2 hdecl]
  cases (Fields decl)[1]? with
  | none => rfl
  | some a =>
    have hsafe : (∀ line ∈ rest2, lineSafe line) ↔ (∀ line ∈ rest1, lineSafe line) :=
      ⟨fun h line hl => h line (hperm.mem_iff.mpr hl),
       fun h line hl => h line (hperm.mem_iff.mp hl)⟩
    by_cases hs : ∀ line ∈ rest1, lineSafe line
    swap
    · simp only [if_neg hs, if_neg (fun h => hs (hsafe.mp h))]
    simp only [if_pos hs, if_pos (hsafe.mpr hs)]
    have hE := lastWith_perm mEnds hperm (hone mEnds (by simp))
    have hS := lastWith_perm mStarts hperm (hone mStarts (by simp))
    have hH := lastWith_perm mHardware hperm (hone mHardware (by simp))
    have hC := lastWith_perm mCircuitId hperm (hone mCircuitId (by simp))
    have hB := lastWith_perm mBinding hperm (hone mBinding (by simp))
    have hstamps : ((rest2.flatMap lineStamps).filterMap (fun d => (LeaseTime T d).2)).Perm
        ((rest1.flatMap lineStamps).filterMap (fun d => (LeaseTime T d).2)) :=
      (hperm.flatMap_right lineStamps).filterMap _
    by_cases hnil : (rest1.flatMap lineStamps).filterMap (fun d => (LeaseTime T d).2) = []
    · have hnil2 : (rest2.flatMap lineStamps).filterMap (fun d => (LeaseTime T d).2) = [] := by
        rw [hnil] at hstamps
        exact hstamps.eq_nil
      have : fieldsOf T ((Lease.new T).setAddress a) rest2
          = fieldsOf T ((Lease.new T).setAddress a) rest1 := by
        simp only [fieldsOf, hE, hS, hH, hC, hB, hnil, hnil2]
      rw [this]
    · have hnil2 : (rest2.flatMap lineStamps).filterMap (fun d => (LeaseTime T d).2) ≠ [] := by
        intro h
        rw [h] at hstamps
        exact hnil hstamps.nil_eq.symm
      have e1 : (fieldsOf T ((Lease.new T).setAddress a) rest1).e ≠ [] := by
        simp [fieldsOf, hnil]
      have e2 : (fieldsOf T ((Lease.new T).setAddress a) rest2).e ≠ [] := by
        simp [fieldsOf, hnil2]
      rw [commit_errors _ _ e1, commit_errors _ _ e2]

/-- Witness of C16: the entry `permutedEntry` has the field lines of
`exampleEntry` in another order, and the same outcome. -/
theorem C16_order_of_lines_irrelevant_witness :
    permutedFields.Perm exampleFields ∧
    parseEntry sampleTime oneStore permutedEntry
      = parseEntry sampleTime oneStore exampleEntry :=
  ⟨by decide,
   C16_order_of_lines_irrelevant sampleTime oneStore exampleEntry permutedEntry []
     (lit "lease 10.0.0.5 \x7b") exampleFields permutedFields (by decide) (by decide)
     (by decide) (by decide) (by decide) (by decide)⟩

/-! ## No panic on entries of the expected shape -/

theorem parseEntries_no_panic {τ ε : Type} (T : TimeLib τ ε) (es : List Bytes)
    (h : ∀ e ∈ es, ∀ st : Store τ ε, (parseEntry T st e).panic = none)
    (st : Store τ ε) : (parseEntries T st es).panic = none := by
  induction es generalizing st with
  | nil => rfl
  | cons e es ih =>
    rw [parseEntries]
    have he := h e (List.mem_cons_self _ _) st
    cases hb : parseEntry T st e with
    | mk l2 p =>
      rw [hb] at he
      simp only at he
      subst he
      exact ih (fun x hx => h x (List.mem_cons_of_mem _ hx)) l2

/-- C19: if in every block of the stream the first line that contains "lease"
has at least two fields and every line after it is long enough for the slice
of each marker it contains (10 bytes for "ends", 12 for "starts", 21 for
"hardware", 29 for "option agent.circuit-id", 17 for "  binding state"), Parse
runs over all the blocks without a panic. -/
theorem C19_no_panic_on_shaped_entries {τ ε : Type} (T : TimeLib τ ε)
    (chunks : List Bytes) (leases : Store τ ε)
    (hshape : ∀ entry ∈ (NewScanner chunks).all ScanLeases,
      ∀ (pre : List Bytes) (decl : Bytes) (rest : List Bytes),
        lines entry = pre ++ decl :: rest →
        (∀ x ∈ pre, Contains x mLease = false) → Contains decl mLease = true →
        2 ≤ (Fields decl).length ∧ ∀ line ∈ rest, lineSafe line) :
    (Parse T { scanner := NewScanner chunks, leases := leases }).panic = none := by
  unfold Parse
  apply parseEntries_no_panic
  intro e he st
  rw [parseEntry_eq]
  rcases exists_first_lease (lines e) with h | ⟨pre, decl, rest, h1, h2, h3⟩
  · rw [parseLines_no_lease T st _ h]
  · obtain ⟨hf, hs⟩ := hshape e he pre decl rest h1 h2 h3
    rw [h1, parseLines_skip T st pre _ h2, parseLines_decl T st decl rest h3]
    cases hget : (Fields decl)[1]? with
    | none =>
      have := List.getElem?_eq_none_iff.mp hget
      omega
    | some a => simp only [if_pos hs]

theorem first_lease_unique {ls pre rest rest0 : List Bytes} {decl decl0 : Bytes}
    (h0 : ls = decl0 :: rest0) (hd0 : Contains decl0 mLease = true)
    (h : ls = pre ++ decl :: rest) (hpre : ∀ x ∈ pre, Contains x mLease = false) :
    decl = decl0 ∧ rest = rest0 := by
  cases pre with
  | nil =>
    rw [h0] at h
    simp only [List.nil_append, List.cons.injEq] at h
    exact ⟨h.1.symm, h.2.symm⟩
  | cons x pre =>
    rw [h0] at h
    simp only [List.cons_append, List.cons.injEq] at h
    have := hpre x (List.mem_cons_self _ _)
    rw [← h.1, hd0] at this
    cases this

/-- Witness of C19: the example stream. -/
theorem C19_no_panic_on_shaped_entries_witness :
    (Parse sampleTime { scanner := NewScanner [exampleStream], leases := oneStore }).panic
      = none :=
  C19_no_panic_on_shaped_entries sampleTime [exampleStream] oneStore
    (fun entry he pre decl rest hl hpre _ => by
      have hall : (NewScanner [exampleStream]).all ScanLeases = [exampleEntry] := by decide
      rw [hall, List.mem_singleton] at he
      subst he
      have h0 : lines exampleEntry = lit "lease 10.0.0.5 \x7b" :: exampleFields := by decide
      obtain ⟨hd, hr⟩ := first_lease_unique h0 (by decide) hl hpre
      subst hd
      subst hr
      exact ⟨by decide, by decide⟩)

/-! ## The tokenizer loses nothing before the last terminator -/

theorem blocksAux_round_trip (s cur : Bytes) (hcur : rbrace ∉ cur) :
    ∃ t, rbrace ∉ t ∧
      cur ++ s = (blocksAux cur s).flatMap (fun b => b ++ [rbrace]) ++ t ∧
      (blocksAux cur s).length = s.count rbrace ∧
      ∀ b ∈ blocksAux cur s, rbrace ∉ b := by
  induction s generalizing cur with
  | nil => exact ⟨cur, hcur, by simp [blocksAux], by simp [blocksAux], by simp [blocksAux]⟩
  | cons c rest ih =>
    by_cases hc : c = rbrace
    · obtain ⟨t, h1, h2, h3, h4⟩ := ih [] (by simp)
      refine ⟨t, h1, ?_, ?_, ?_⟩
      · simp only [List.nil_append] at h2
        simp only [blocksAux, hc, if_true, List.flatMap_cons, List.append_assoc,
          List.singleton_append]
        conv_lhs => rw [h2]
        simp
      · simp [blocksAux, hc, h3]
      · intro b hb
        simp only [blocksAux, hc, if_true, List.mem_cons] at hb
        rcases hb with hb | hb
        · rw [hb]
          exact hcur
        · exact h4 b hb
    · have hcur2 : rbrace ∉ cur ++ [c] := by
        simp only [List.mem_append, List.mem_singleton, not_or]
        exact ⟨hcur, fun e => hc e.symm⟩
      obtain ⟨t, h1, h2, h3, h4⟩ := ih (cur ++ [c]) hcur2
      refine ⟨t, h1, ?_, ?_, ?_⟩
      · simp only [blocksAux, hc, if_false, ← h2, List.append_assoc, List.singleton_append]
      · simp only [blocksAux, hc, if_false, h3]
        rw [List.count_cons_of_ne (fun e => hc e.symm)]
      · intro b hb
        simp only [blocksAux, hc, if_false] at hb
        exact h4 b hb

/-! ## The binding-state marker -/

theorem hasPrefix_of_head_absent {s : Bytes} {c : Nat} (m : Bytes) (h : ∀ x ∈ s, x ≠ c) :
    HasPrefix s (c :: m) = false := by
  cases s with
  | nil => rfl
  | cons x xs =>
    have hx : x ≠ c := h x (List.mem_cons_self _ _)
    simp [HasPrefix, hx]

theorem contains_of_head_absent {s : Bytes} {c : Nat} (m : Bytes) (h : ∀ x ∈ s, x ≠ c) :
    Contains s (c :: m) = false := by
  induction s with
  | nil => rfl
  | cons x xs ih =>
    have hx : x ≠ c := h x (List.mem_cons_self _ _)
    have hxs : ∀ y ∈ xs, y ≠ c := fun y hy => h y (List.mem_cons_of_mem _ hy)
    simp [Contains, HasPrefix, hx, ih hxs]

theorem hasPrefix_mem {s p : Bytes} (h : HasPrefix s p = true) : ∀ c ∈ p, c ∈ s := by
  induction s generalizing p with
  | nil =>
    cases p with
    | nil => simp
    | cons b p => simp [HasPrefix] at h
  | cons a s ih =>
    cases p with
    | nil => simp
    | cons b p =>
      simp only [HasPrefix, Bool.and_eq_true, beq_iff_eq] at h
      intro c hc
      rcases List.mem_cons.mp hc with hc | hc
      · rw [hc, ← h.1]
        exact List.mem_cons_self _ _
      · exact List.mem_cons_of_mem _ (ih h.2 c hc)

theorem contains_mem {s sub : Bytes} (h : Contains s sub = true) : ∀ c ∈ sub, c ∈ s := by
  induction s with
  | nil =>
    cases sub with
    | nil => simp
    | cons b p => simp [Contains] at h
  | cons a s ih =>
    simp only [Contains, Bool.or_eq_true] at h
    rcases h with h | h
    · exact hasPrefix_mem h
    · exact fun c hc => List.mem_cons_of_mem _ (ih h c hc)

theorem contains_of_absent {s sub : Bytes} (c : Nat) (hc : c ∈ sub) (h : ∀ x ∈ s, x ≠ c) :
    Contains s sub = false := by
  cases hs : Contains s sub with
  | false => rfl
  | true => exact absurd rfl (h c (contains_mem hs c hc))

theorem hasPrefix_length {s p : Bytes} (h : HasPrefix s p = true) : p.length ≤ s.length := by
  induction s generalizing p with
  | nil =>
    cases p with
    | nil => simp
    | cons b p => simp [HasPrefix] at h
  | cons a s ih =>
    cases p with
    | nil => simp
    | cons b p =>
      simp only [HasPrefix, Bool.and_eq_true] at h
      have := ih h.2
      simp only [List.length_cons]
      omega

theorem contains_length {s sub : Bytes} (h : Contains s sub = true) :
    sub.length ≤ s.length := by
  induction s with
  | nil =>
    cases sub with
    | nil => simp
    | cons b p => simp [Contains] at h
  | cons a s ih =>
    simp only [Contains, Bool.or_eq_true] at h
    rcases h with h | h
    · exact hasPrefix_length h
    · have := ih h
      simp only [List.length_cons]
      omega

theorem fieldLine_binding {τ ε : Type} (T : TimeLib τ ε) (l : Lease τ ε) (line : Bytes)
    (hsafe : lineSafe line) :
    ∃ l1, fieldLine T l line = .ok l1 ∧
      l1.binding = if Contains line mBinding then sl line 16 1 else l.binding :=
  ⟨fieldLineT T l line, by rw [fieldLine_eq, if_pos hsafe], rfl⟩

theorem tail_no_space {X : Bytes} (hX : space ∉ X) : ∀ x ∈ X ++ lit ";", x ≠ 32 := by
  intro x hx
  rcases List.mem_append.mp hx with h | h
  · intro e
    rw [e] at h
    exact hX h
  · have : lit ";" = [59] := by decide
    rw [this, List.mem_singleton] at h
    omega

theorem mBinding_eq :
    mBinding = [32, 32, 98, 105, 110, 100, 105, 110, 103, 32, 115, 116, 97, 116, 101] := by
  decide

theorem mCircuitId_eq :
    mCircuitId = [111, 112, 116, 105, 111, 110, 32, 97, 103, 101, 110, 116, 46, 99, 105,
      114, 99, 117, 105, 116, 45, 105, 100] := by
  decide

theorem mHardware_eq : mHardware = [104, 97, 114, 100, 119, 97, 114, 101] := by
  decide

theorem nextBindingLine_eq (X : Bytes) :
    nextBindingLine X
      = 32 :: 32 :: 110 :: 101 :: 120 :: 116 :: 32 :: 98 :: 105 :: 110 :: 100 :: 105 :: 110 ::
        103 :: 32 :: 115 :: 116 :: 97 :: 116 :: 101 :: 32 :: (X ++ lit ";") := by
  have h : lit "  next binding state "
      = [32, 32, 110, 101, 120, 116, 32, 98, 105, 110, 100, 105, 110, 103, 32, 115, 116, 97,
         116, 101, 32] := by decide
  simp [nextBindingLine, h]

theorem rewindBindingLine_eq (X : Bytes) :
    rewindBindingLine X
      = 32 :: 32 :: 114 :: 101 :: 119 :: 105 :: 110 :: 100 :: 32 :: 98 :: 105 :: 110 :: 100 ::
        105 :: 110 :: 103 :: 32 :: 115 :: 116 :: 97 :: 116 :: 101 :: 32 :: (X ++ lit ";") := by
  have h : lit "  rewind binding state "
      = [32, 32, 114, 101, 119, 105, 110, 100, 32, 98, 105, 110, 100, 105, 110, 103, 32, 115,
         116, 97, 116, 101, 32] := by decide
  simp [rewindBindingLine, h]

theorem bindingLine_eq (X : Bytes) :
    bindingLine X
      = 32 :: 32 :: 98 :: 105 :: 110 :: 100 :: 105 :: 110 :: 103 :: 32 :: 115 :: 116 :: 97 ::
        116 :: 101 :: 32 :: (X ++ lit ";") := by
  have h : lit "  binding state "
      = [32, 32, 98, 105, 110, 100, 105, 110, 103, 32, 115, 116, 97, 116, 101, 32] := by
    decide
  simp [bindingLine, h]

theorem nextBindingLine_facts (X : Bytes) (hX : space ∉ X) :
    Contains (nextBindingLine X) mBinding = false ∧ lineSafe (nextBindingLine X) := by
  have hY := tail_no_space hX
  have hB : Contains (nextBindingLine X) mBinding = false := by
    rw [nextBindingLine_eq, mBinding_eq]
    simp [Contains, HasPrefix, hasPrefix_of_head_absent _ hY, contains_of_head_absent _ hY]
  have hC : Contains (nextBindingLine X) mCircuitId = false := by
    have hYc : Contains (X ++ lit ";") mCircuitId = false :=
      contains_of_absent 32 (by decide) hY
    rw [mCircuitId_eq] at hYc
    rw [nextBindingLine_eq, mCircuitId_eq]
    simp [Contains, HasPrefix, hYc]
  have hlen1 : (lit ";").length = 1 := by decide
  have hlen0 : (nextBindingLine X).length = 21 + (X ++ lit ";").length := by
    rw [nextBindingLine_eq]
    simp only [List.length_cons]
    omega
  have hlen : 22 ≤ (nextBindingLine X).length := by
    rw [hlen0, List.length_append, hlen1]
    omega
  refine ⟨hB, fun _ => by omega, fun _ => by omega, fun _ => by omega, fun h => ?_,
    fun _ => by omega⟩
  rw [hC] at h
  cases h

theorem rewindBindingLine_facts (X : Bytes) (hX : space ∉ X) :
    Contains (rewindBindingLine X) mBinding = false ∧ lineSafe (rewindBindingLine X) := by
  have hY := tail_no_space hX
  have hB : Contains (rewindBindingLine X) mBinding = false := by
    rw [rewindBindingLine_eq, mBinding_eq]
    simp [Contains, HasPrefix, hasPrefix_of_head_absent _ hY, contains_of_head_absent _ hY]
  have hC : Contains (rewindBindingLine X) mCircuitId = false := by
    have hYc : Contains (X ++ lit ";") mCircuitId = false :=
      contains_of_absent 32 (by decide) hY
    rw [mCircuitId_eq] at hYc
    rw [rewindBindingLine_eq, mCircuitId_eq]
    simp [Contains, HasPrefix, hYc]
  have hlen1 : (lit ";").length = 1 := by decide
  have hlen0 : (rewindBindingLine X).length = 23 + (X ++ lit ";").length := by
    rw [rewindBindingLine_eq]
    simp only [List.length_cons]
    omega
  have hlen : 24 ≤ (rewindBindingLine X).length := by
    rw [hlen0, List.length_append, hlen1]
    omega
  refine ⟨hB, fun _ => by omega, fun _ => by omega, fun _ => by omega, fun h => ?_,
    fun _ => by omega⟩
  rw [hC] at h
  cases h

theorem bindingLine_facts (X : Bytes) (hX : space ∉ X) :
    Contains (bindingLine X) mBinding = true ∧ lineSafe (bindingLine X) ∧
    sl (bindingLine X) 16 1 = X := by
  have hY := tail_no_space hX
  have hB : Contains (bindingLine X) mBinding = true := by
    rw [bindingLine_eq, mBinding_eq]
    simp [Contains, HasPrefix]
  have hC : Contains (bindingLine X) mCircuitId = false := by
    have hYc : Contains (X ++ lit ";") mCircuitId = false :=
      contains_of_absent 32 (by decide) hY
    rw [mCircuitId_eq] at hYc
    rw [bindingLine_eq, mCircuitId_eq]
    simp [Contains, HasPrefix, hYc]
  have hlen : (bindingLine X).length = 16 + (X ++ lit ";").length := by
    rw [bindingLine_eq]
    simp only [List.length_cons]
    omega
  have hH : Contains (bindingLine X) mHardware = true → 21 ≤ (bindingLine X).length := by
    intro h
    rw [bindingLine_eq, mHardware_eq] at h
    simp [Contains, HasPrefix] at h
    have := contains_length h
    simp only [List.length_cons, List.length_nil] at this
    omega
  have hlen1 : (lit ";").length = 1 := by decide
  refine ⟨hB, ⟨fun _ => ?_, fun _ => ?_, hH, fun h => ?_, fun _ => ?_⟩, ?_⟩
  · rw [hlen, List.length_append, hlen1]; omega
  · rw [hlen, List.length_append, hlen1]; omega
  · rw [hC] at h
    cases h
  · rw [hlen, List.length_append, hlen1]; omega
  · have hsplit : bindingLine X = (lit "  binding state " ++ X) ++ lit ";" := by
      simp [bindingLine]
    have hl16 : (lit "  binding state ").length = 16 := by decide
    unfold sl
    rw [hlen, List.length_append, hlen1]
    rw [hsplit, List.take_left' (by rw [List.length_append, hl16]; omega),
      List.drop_left' hl16]

/-- C17: for a state token X without a space, the lines
"  next binding state X;" and "  rewind binding state X;" do not contain the
marker "  binding state", and the body of the inner loop of Parse returns
normally on them with the binding state of the record as it was; the line
"  binding state X;" contains the marker and the body sets the binding state
to X. -/
theorem C17_binding_marker_no_collision {τ ε : Type} (T : TimeLib τ ε) (l : Lease τ ε)
    (X : Bytes) (hX : space ∉ X) :
    (Contains (nextBindingLine X) mBinding = false ∧
      ∃ l1, fieldLine T l (nextBindingLine X) = .ok l1 ∧ l1.binding = l.binding) ∧
    (Contains (rewindBindingLine X) mBinding = false ∧
      ∃ l1, fieldLine T l (rewindBindingLine X) = .ok l1 ∧ l1.binding = l.binding) ∧
    (Contains (bindingLine X) mBinding = true ∧
      ∃ l1, fieldLine T l (bindingLine X) = .ok l1 ∧ l1.binding = X) := by
  obtain ⟨n1, n2⟩ := nextBindingLine_facts X hX
  obtain ⟨r1, r2⟩ := rewindBindingLine_facts X hX
  obtain ⟨b1, b2, b3⟩ := bindingLine_facts X hX
  refine ⟨⟨n1, ?_⟩, ⟨r1, ?_⟩, ⟨b1, ?_⟩⟩
  · obtain ⟨l1, h1, h2⟩ := fieldLine_binding T l _ n2
    exact ⟨l1, h1, by rw [h2, n1]; rfl⟩
  · obtain ⟨l1, h1, h2⟩ := fieldLine_binding T l _ r2
    exact ⟨l1, h1, by rw [h2, r1]; rfl⟩
  · obtain ⟨l1, h1, h2⟩ := fieldLine_binding T l _ b2
    exact ⟨l1, h1, by rw [h2, b1, if_pos rfl, b3]⟩

/-- Witness of C17 with the state token "free" and a record whose binding
state is "active". -/
theorem C17_binding_marker_no_collision_witness :
    space ∉ lit "free" ∧
    Contains (lit "  next binding state free;") mBinding = false ∧
    (∃ l1, fieldLine sampleTime
        { Lease.new sampleTime with binding := lit "active" } (nextBindingLine (lit "free"))
          = .ok l1 ∧
      l1.binding = lit "active") ∧
    (∃ l1, fieldLine sampleTime
        { Lease.new sampleTime with binding := lit "active" } (bindingLine (lit "free"))
          = .ok l1 ∧
      l1.binding = lit "free") :=
  (fun h => ⟨by decide, h.1.1, h.1.2, h.2.2.2⟩)
    (C17_binding_marker_no_collision sampleTime
      { Lease.new sampleTime with binding := lit "active" } (lit "free") (by decide))

/-! ## The scanner with its limits, driven by ScanLeases -/

theorem IndexByte_append_ge {data : Bytes} {c i : Nat} (x : Bytes) (h : c ∉ data)
    (hi : IndexByte (data ++ x) c = some i) : data.length ≤ i := by
  induction data generalizing i with
  | nil => simp
  | cons b rest ih =>
    have hb : b ≠ c := fun e => h (by simp [e])
    have hr : c ∉ rest := fun e => h (by simp [e])
    simp only [List.cons_append, IndexByte, hb, if_false, Option.map_eq_some'] at hi
    obtain ⟨j, hj, rfl⟩ := hi
    have := ih hr hj
    simp only [List.length_cons]
    omega

theorem shortBlocks_of_none {s : Bytes} (h : IndexByte s rbrace = none) :
    shortBlocks s = [] := by
  simp [shortBlocks, blocks_of_none h]

theorem shortBlocks_of_some_lt {s : Bytes} {i : Nat} (h : IndexByte s rbrace = some i)
    (hi : i < MaxScanTokenSize) :
    shortBlocks s = s.take i :: shortBlocks (s.drop (i + 1)) := by
  have hlen := (IndexByte_eq_some h).2.2
  have h1 : (s.take i).length = i := by
    rw [List.length_take]
    omega
  simp [shortBlocks, blocks_of_some h, List.takeWhile_cons, h1, hi]

theorem shortBlocks_of_some_ge {s : Bytes} {i : Nat} (h : IndexByte s rbrace = some i)
    (hi : MaxScanTokenSize ≤ i) : shortBlocks s = [] := by
  have hlen := (IndexByte_eq_some h).2.2
  have h1 : (s.take i).length = i := by
    rw [List.length_take]
    omega
  have h2 : ¬ i < MaxScanTokenSize := by omega
  simp [shortBlocks, blocks_of_some h, List.takeWhile_cons, h1, h2]

theorem shortBlocks_of_full_buffer {data : Bytes} (x : Bytes)
    (h : IndexByte data rbrace = none) (hlen : MaxScanTokenSize ≤ data.length) :
    shortBlocks (data ++ x) = [] := by
  cases hi : IndexByte (data ++ x) rbrace with
  | none => exact shortBlocks_of_none hi
  | some i =>
    have := IndexByte_append_ge x (IndexByte_eq_none.mp h) hi
    exact shortBlocks_of_some_ge hi (by omega)

theorem readMore_spec (space : Nat) (hs : 0 < space) (src : List Bytes) (loop : Nat)
    (h : runsOK src loop = true) :
    ((readMore space src loop).err = some .eof ∧ (readMore space src loop).got = [] ∧
      src.flatten = []) ∨
    ((readMore space src loop).err = none ∧ (readMore space src loop).got ≠ [] ∧
      (readMore space src loop).got.length ≤ space ∧
      (readMore space src loop).got ++ (readMore space src loop).src.flatten = src.flatten ∧
      runsOK (readMore space src loop).src 0 = true ∧
      2 * (readMore space src loop).src.flatten.length + (readMore space src loop).src.length
          + (readMore space src loop).got.length + 1
        ≤ 2 * src.flatten.length + src.length) := by
  induction src generalizing loop with
  | nil => exact Or.inl ⟨rfl, rfl, rfl⟩
  | cons c cs ih =>
    by_cases hc : c = []
    · subst hc
      simp only [runsOK, if_true, Bool.and_eq_true, decide_eq_true_eq] at h
      have hlt : ¬ maxConsecutiveEmptyReads < loop + 1 := by omega
      simp only [readMore, if_true, if_neg hlt]
      rcases ih (loop + 1) h.2 with ⟨h1, h2, h3⟩ | ⟨h1, h2, h3, h4, h5, h6⟩
      · exact Or.inl ⟨h1, h2, by simpa using h3⟩
      · refine Or.inr ⟨h1, h2, h3, by simpa using h4, h5, ?_⟩
        simp only [List.flatten_cons, List.nil_append, List.length_cons]
        omega
    · simp only [runsOK, if_neg hc] at h
      have hr : readMore space (c :: cs) loop
          = ⟨c.take space, if c.drop space = [] then cs else c.drop space :: cs, none⟩ := by
        simp only [readMore, if_neg hc]
      rw [hr]
      dsimp only
      right
      have hpos : 0 < c.length := List.length_pos.mpr hc
      have hsplit : (c.take space).length + (c.drop space).length = c.length := by
        rw [← List.length_append, List.take_append_drop]
      have htake : 1 ≤ (c.take space).length := by
        simp only [List.length_take]
        omega
      refine ⟨rfl, ?_, ?_, ?_, ?_, ?_⟩
      · intro e
        rw [e] at htake
        simp at htake
      · simp only [List.length_take]
        omega
      · by_cases hd : c.drop space = []
        · have hfull : c.take space = c := by
            conv_rhs => rw [← List.take_append_drop space c, hd]
            simp
          simp only [hd, if_true, List.flatten_cons, hfull]
        · simp only [if_neg hd, List.flatten_cons]
          rw [← List.append_assoc, List.take_append_drop]
      · by_cases hd : c.drop space = []
        · simpa only [hd, if_true] using h
        · simpa only [if_neg hd, runsOK] using h
      · by_cases hd : c.drop space = []
        · simp only [hd, if_true, List.flatten_cons, List.length_append, List.length_cons]
          omega
        · simp only [if_neg hd, List.flatten_cons, List.length_append, List.length_cons]
          omega

theorem shift_spec (s : BufScanner) (hinv : s.start + s.data.length ≤ s.cap) :
    s.shift.data = s.data ∧ s.shift.src = s.src ∧ s.shift.err = s.err ∧
    s.shift.cap = s.cap ∧ s.shift.start + s.data.length ≤ s.cap ∧
    (s.shift.start + s.data.length = s.cap → s.shift.start = 0) := by
  unfold BufScanner.shift
  split_ifs with h
  · refine ⟨rfl, rfl, rfl, rfl, ?_, fun _ => rfl⟩
    simp only
    omega
  · refine ⟨rfl, rfl, rfl, rfl, hinv, fun h2 => ?_⟩
    by_contra h3
    exact h ⟨by omega, Or.inl h2⟩

theorem read_spec (s : BufScanner) (hlt : s.start + s.data.length < s.cap)
    (hr : runsOK s.src 0 = true) :
    ∃ s1, s.read = .again s1 ∧ s1.cap = s.cap ∧
      ((s1.err = some .eof ∧ s1.data = s.data ∧ s.src.flatten = []) ∨
       (s1.err = none ∧ s1.start + s1.data.length ≤ s1.cap ∧ runsOK s1.src 0 = true ∧
        s1.data ++ s1.src.flatten = s.data ++ s.src.flatten ∧ s1.bound + 1 ≤ s.bound)) := by
  refine ⟨_, rfl, rfl, ?_⟩
  rcases readMore_spec (s.cap - (s.start + s.data.length)) (by omega) s.src 0 hr with
    ⟨h1, h2, h3⟩ | ⟨h1, h2, h3, h4, h5, h6⟩
  · left
    exact ⟨h1, by simp [h2], h3⟩
  · right
    refine ⟨h1, ?_, h5, ?_, ?_⟩
    · simp only [List.length_append]
      omega
    · simp only [List.append_assoc, h4]
    · simp only [BufScanner.bound, List.length_append]
      omega

theorem fill_spec (s : BufScanner) (hinv : s.start + s.data.length ≤ s.cap)
    (hcap : s.cap ≤ MaxScanTokenSize) (hr : runsOK s.src 0 = true) :
    (∃ s1, s.fill = .stop s1 ∧ MaxScanTokenSize ≤ s.data.length) ∨
    ∃ s1, s.fill = .again s1 ∧ s1.cap ≤ MaxScanTokenSize ∧
      ((s1.err = some .eof ∧ s1.data = s.data ∧ s.src.flatten = []) ∨
       (s1.err = none ∧ s1.start + s1.data.length ≤ s1.cap ∧ runsOK s1.src 0 = true ∧
        s1.data ++ s1.src.flatten = s.data ++ s.src.flatten ∧ s1.bound + 1 ≤ s.bound)) := by
  obtain ⟨hd, hsrc, herr, hc, hle, hzero⟩ := shift_spec s hinv
  unfold BufScanner.fill
  by_cases hfull : s.shift.start + s.shift.data.length = s.shift.cap
  · rw [if_pos hfull]
    rw [hd, hc] at hfull
    have hz := hzero hfull
    by_cases hmax : MaxScanTokenSize ≤ s.shift.cap
    · rw [if_pos hmax]
      left
      refine ⟨_, rfl, ?_⟩
      rw [hc] at hmax
      omega
    · rw [if_neg hmax]
      right
      rw [hc] at hmax
      have hnew : s.data.length
          < min (if s.shift.cap * 2 = 0 then startBufSize else s.shift.cap * 2)
              MaxScanTokenSize := by
        rw [hc]
        have h4096 : startBufSize = 4096 := rfl
        split_ifs <;> omega
      obtain ⟨s1, h1, h2, h3⟩ := read_spec
        { s.shift with
          cap := min (if s.shift.cap * 2 = 0 then startBufSize else s.shift.cap * 2)
            MaxScanTokenSize,
          start := 0 }
        (by simpa only [hd, Nat.zero_add] using hnew) (by simpa only [hsrc] using hr)
      refine ⟨s1, h1, ?_, ?_⟩
      · rw [h2]
        exact Nat.min_le_right _ _
      · simpa only [hd, hsrc, BufScanner.bound] using h3
  · rw [if_neg hfull]
    right
    rw [hd, hc] at hfull
    obtain ⟨s1, h1, h2, h3⟩ := read_spec s.shift
      (by rw [hd, hc]; omega) (by rw [hsrc]; exact hr)
    refine ⟨s1, h1, by rw [h2, hc]; exact hcap, ?_⟩
    simpa only [hd, hsrc, BufScanner.bound] using h3

theorem step_ScanLeases_token (s : BufScanner) {j : Nat}
    (h : IndexByte s.data rbrace = some j) :
    s.step ScanLeases
      = .token { s with start := s.start + (j + 1), data := s.data.drop (j + 1),
                        tok := s.data.take j } := by
  have hlen := (IndexByte_eq_some h).2.2
  have : s.data.length - (s.data.drop (j + 1)).length = j + 1 := by
    rw [List.length_drop]
    omega
  simp only [BufScanner.step, attempt_ScanLeases_some _ h, this]

theorem step_ScanLeases_failed (s : BufScanner) (h : IndexByte s.data rbrace = none)
    (he : s.err.isSome = true) :
    s.step ScanLeases = .stop { s with start := 0, data := [], tok := [] } := by
  simp only [BufScanner.step, attempt_ScanLeases_none _ h, he, if_true]

theorem step_ScanLeases_more (s : BufScanner) (h : IndexByte s.data rbrace = none)
    (he : s.err = none) :
    s.step ScanLeases = BufScanner.fill { s with tok := [] } := by
  simp [BufScanner.step, attempt_ScanLeases_none _ h, he]

/-- With ScanLeases and a reader that never returns no bytes more than
`maxConsecutiveEmptyReads` times in a row, the scanner with its limits ends,
and its tokens are the blocks of the bytes not yet consumed up to the first
block of `MaxScanTokenSize` bytes or more. -/
theorem bufTokens_ScanLeases (fuel : Nat) (s : BufScanner)
    (hinv : s.start + s.data.length ≤ s.cap) (hcap : s.cap ≤ MaxScanTokenSize)
    (he : s.err = none) (hr : runsOK s.src 0 = true) (hf : s.bound ≤ fuel) :
    s.tokens ScanLeases fuel = some (shortBlocks (s.data ++ s.src.flatten)) := by
  induction fuel generalizing s with
  | zero =>
    simp only [BufScanner.bound] at hf
    omega
  | succ n ih =>
    cases hi : IndexByte s.data rbrace with
    | some j =>
      have hlen := (IndexByte_eq_some hi).2.2
      have hj : j < MaxScanTokenSize := by omega
      have hrec := ih { s with start := s.start + (j + 1), data := s.data.drop (j + 1),
                               tok := s.data.take j }
        (by simp only [List.length_drop]; omega) hcap he hr
        (by simp only [BufScanner.bound, List.length_drop] at hf ⊢; omega)
      simp only [BufScanner.tokens, step_ScanLeases_token s hi, hrec, Option.map_some']
      rw [shortBlocks_of_some_lt (IndexByte_append_of_some s.src.flatten hi) hj,
        List.take_append_of_le_length (by omega),
        List.drop_append_of_le_length (by omega)]
    | none =>
      simp only [BufScanner.tokens, step_ScanLeases_more s hi he]
      rcases fill_spec { s with tok := [] } hinv hcap hr with
        ⟨s1, h1, h2⟩ | ⟨s1, h1, hc1, h2⟩
      · simp only [h1]
        rw [shortBlocks_of_full_buffer _ hi h2]
      · simp only [h1]
        rcases h2 with ⟨e1, e2, e3⟩ | ⟨e1, e2, e3, e4, e5⟩
        · have hn : 1 ≤ n := by
            simp only [BufScanner.bound] at hf
            omega
          obtain ⟨m, rfl⟩ : ∃ m, n = m + 1 := ⟨n - 1, by omega⟩
          have hd1 : IndexByte s1.data rbrace = none := by
            rw [e2]
            exact hi
          simp only [BufScanner.tokens, step_ScanLeases_failed s1 hd1 (by simp [e1])]
          have htot : s.data ++ s.src.flatten = s.data := by
            have : s.src.flatten = [] := e3
            rw [this, List.append_nil]
          rw [htot, shortBlocks_of_none hi]
        · have hb : s1.bound ≤ n := by
            have : ({ s with tok := [] } : BufScanner).bound = s.bound := rfl
            omega
          rw [ih s1 e2 hc1 e1 e3 hb, e4]

theorem runsOK_singleton (x : Bytes) : runsOK [x] 0 = true := by
  by_cases h : x = []
  · simp [runsOK, h, maxConsecutiveEmptyReads]
  · simp [runsOK, h]

theorem bufAll_ScanLeases (chunks : List Bytes) (hr : runsOK chunks 0 = true) :
    (NewBufScanner chunks).all ScanLeases = shortBlocks chunks.flatten := by
  have h := bufTokens_ScanLeases (NewBufScanner chunks).bound (NewBufScanner chunks)
    (by simp [NewBufScanner]) (by simp [NewBufScanner]) rfl hr (Nat.le_refl _)
  simp only [BufScanner.all, h, Option.getD_some]
  simp [NewBufScanner]

theorem shortBlocks_eq_blocks {s : Bytes}
    (h : ∀ b ∈ blocks s, b.length < MaxScanTokenSize) : shortBlocks s = blocks s := by
  unfold shortBlocks
  rw [List.takeWhile_eq_self_iff]
  intro b hb
  simpa using h b hb

/-- With ScanLeases the scanner with its limits and the scanner without
them yield the same tokens, when no block has `MaxScanTokenSize` bytes or
more and no more than `maxConsecutiveEmptyReads` reads in a row are
empty. -/
theorem bufAll_eq_all (chunks : List Bytes) (hr : runsOK chunks 0 = true)
    (hshort : ∀ b ∈ blocks chunks.flatten, b.length < MaxScanTokenSize) :
    (NewBufScanner chunks).all ScanLeases = (NewScanner chunks).all ScanLeases := by
  rw [bufAll_ScanLeases chunks hr, all_ScanLeases_new, shortBlocks_eq_blocks hshort]

/-- Counterexample to C3: a reader that returns no bytes 101 times before it
delivers the entry a} ends the scan with `io.ErrNoProgress`, and the scanner
yields no block, while the same stream delivered as one chunk yields the
block a. -/
theorem C3_counterexample :
    stalledChunks.flatten = lit "a\x7d" ∧
    (NewBufScanner stalledChunks).all ScanLeases = [] ∧
    (NewBufScanner [stalledChunks.flatten]).all ScanLeases = [lit "a"] := by
  decide

/-- C3, amended: for every stream and every way of cutting it into read
chunks in which no more than 100 reads in a row are empty, the scanner of
NewLeases driven by ScanLeases yields the same sequence of blocks as when the
whole stream is delivered as one chunk, namely the blocks of the stream up
to the first block of 65536 bytes or more; both runs end within the bound on
the rounds of Scan. -/
theorem C3_chunking_independent_within_limits (chunks : List Bytes)
    (hr : runsOK chunks 0 = true) :
    (NewBufScanner chunks).all ScanLeases
      = (NewBufScanner [chunks.flatten]).all ScanLeases ∧
    (NewBufScanner chunks).all ScanLeases = shortBlocks chunks.flatten ∧
    ∀ k : Nat,
      (NewBufScanner chunks).tokens ScanLeases ((NewBufScanner chunks).bound + k)
        = some (shortBlocks chunks.flatten) ∧
      (NewBufScanner [chunks.flatten]).tokens ScanLeases
          ((NewBufScanner [chunks.flatten]).bound + k)
        = some (shortBlocks chunks.flatten) := by
  have h1 := bufAll_ScanLeases chunks hr
  have h2 := bufAll_ScanLeases [chunks.flatten] (runsOK_singleton _)
  simp only [List.flatten_cons, List.flatten_nil, List.append_nil] at h2
  refine ⟨by rw [h1, h2], h1, fun k => ⟨?_, ?_⟩⟩
  · have := bufTokens_ScanLeases ((NewBufScanner chunks).bound + k) (NewBufScanner chunks)
      (by simp [NewBufScanner]) (by simp [NewBufScanner]) rfl hr (Nat.le_add_right _ _)
    simpa [NewBufScanner] using this
  · have := bufTokens_ScanLeases ((NewBufScanner [chunks.flatten]).bound + k)
      (NewBufScanner [chunks.flatten])
      (by simp [NewBufScanner]) (by simp [NewBufScanner]) rfl (runsOK_singleton _)
      (Nat.le_add_right _ _)
    simpa [NewBufScanner] using this

/-- Witness of C3, amended: a stream read in four chunks, one of them
empty. -/
theorem C3_chunking_independent_within_limits_witness :
    runsOK [lit "ab\x7dc", [], lit "d\x7d\x7def", lit "g\x7dh"] 0 = true ∧
    (NewBufScanner [lit "ab\x7dc", [], lit "d\x7d\x7def", lit "g\x7dh"]).all ScanLeases
      = (NewBufScanner [[lit "ab\x7dc", [], lit "d\x7d\x7def", lit "g\x7dh"].flatten]).all
          ScanLeases ∧
    (NewBufScanner [lit "ab\x7dc", [], lit "d\x7d\x7def", lit "g\x7dh"]).all ScanLeases
      = [lit "ab", lit "cd", [], lit "efg"] :=
  (fun h => ⟨by decide, h.1, h.2.1.trans (by decide)⟩)
    (C3_chunking_independent_within_limits
      [lit "ab\x7dc", [], lit "d\x7d\x7def", lit "g\x7dh"] (by decide))

theorem longBlock_index : IndexByte longBlock rbrace = some MaxScanTokenSize := by
  have h : rbrace ∉ List.replicate MaxScanTokenSize 97 := by
    rw [List.mem_replicate]
    intro h
    exact absurd h.2 (by decide)
  have := @IndexByte_append (List.replicate MaxScanTokenSize 97) [] rbrace h
  rw [List.length_replicate] at this
  exact this

/-- Counterexample to C18: the stream of one block of 65536 bytes and its
closing brace has one '}' byte, and the scanner of NewLeases ends with
`ErrTooLong` and yields no block; the stream a} has one '}' byte, and read
after 101 empty reads it yields no block either. -/
theorem C18_counterexample :
    longBlock.count rbrace = 1 ∧
    (NewBufScanner [longBlock]).all ScanLeases = [] ∧
    stalledChunks.flatten.count rbrace = 1 ∧
    (NewBufScanner stalledChunks).all ScanLeases = [] := by
  refine ⟨?_, ?_, by decide, by decide⟩
  · have h97 : (97 : Nat) ≠ rbrace := by decide
    simp [longBlock, List.count_append, List.count_replicate, h97]
  · rw [bufAll_ScanLeases [longBlock] (runsOK_singleton _)]
    simp only [List.flatten_cons, List.flatten_nil, List.append_nil]
    exact shortBlocks_of_some_ge longBlock_index (Nat.le_refl _)

/-- C18, amended: for a stream s all of whose blocks are shorter than 65536
bytes, read in chunks with no more than 100 empty reads in a row, with
b1, ..., bn the blocks the scanner of NewLeases yields with ScanLeases,
s = b1 ++ "}" ++ ... ++ bn ++ "}" ++ t for a remainder t without '}', and t is
the only text that completes the blocks to s; n is the number of '}' bytes of
s and no block contains '}'. -/
theorem C18_round_trip_within_limits (chunks : List Bytes)
    (hr : runsOK chunks 0 = true)
    (hshort : ∀ b ∈ blocks chunks.flatten, b.length < MaxScanTokenSize) :
    ∃ t, rbrace ∉ t ∧
      chunks.flatten
        = ((NewBufScanner chunks).all ScanLeases).flatMap (fun b => b ++ [rbrace]) ++ t ∧
      (∀ t1, chunks.flatten
          = ((NewBufScanner chunks).all ScanLeases).flatMap (fun b => b ++ [rbrace]) ++ t1 →
        t1 = t) ∧
      ((NewBufScanner chunks).all ScanLeases).length = chunks.flatten.count rbrace ∧
      ∀ b ∈ (NewBufScanner chunks).all ScanLeases, rbrace ∉ b := by
  rw [bufAll_ScanLeases chunks hr, shortBlocks_eq_blocks hshort]
  obtain ⟨t, h1, h2, h3, h4⟩ := blocksAux_round_trip chunks.flatten [] (by simp)
  simp only [List.nil_append] at h2
  refine ⟨t, h1, h2, ?_, h3, h4⟩
  intro t1 ht1
  have : (blocks chunks.flatten).flatMap (fun b => b ++ [rbrace]) ++ t1
      = (blocks chunks.flatten).flatMap (fun b => b ++ [rbrace]) ++ t := by
    rw [← ht1]
    exact h2
  exact List.append_cancel_left this

/-- Witness of C18, amended: the stream ab, terminator, cd, terminator, ef
read in two chunks has two blocks and the remainder ef. -/
theorem C18_round_trip_within_limits_witness :
    ∃ t, rbrace ∉ t ∧
      [lit "ab\x7dc", lit "d\x7def"].flatten
        = ((NewBufScanner [lit "ab\x7dc", lit "d\x7def"]).all ScanLeases).flatMap
            (fun b => b ++ [rbrace]) ++ t ∧
      (lit "ef" = t) ∧
      ((NewBufScanner [lit "ab\x7dc", lit "d\x7def"]).all ScanLeases).length = 2 :=
  (C18_round_trip_within_limits [lit "ab\x7dc", lit "d\x7def"] (by decide) (by decide)).imp
    (fun _ h => ⟨h.1, h.2.1, h.2.2.1 (lit "ef") (by decide), h.2.2.2.1⟩)

end Leases
